import Mathlib

/-!
# xboot `kernel/graphic/surface.c` : a shallow embedding

The C functions of `surface.c` are translated into pure Lean functions.

* C `int` values are mathematical integers (`Int`); signed overflow is undefined
  behaviour in C and lies outside the model.
* Memory is a list of bytes (`List Nat`); a `uint32_t` access at word index `k`
  touches the four bytes `4k .. 4k+3`, least significant byte first (the
  targets of xboot are little endian).
* A NULL pointer is `none`.  Dereferencing NULL and accessing memory outside of
  a buffer are reported as a `fault_t`; everything else returns normally.
* Calls to collaborators (heap, backend, file system) are recorded in a trace of
  `event_t`.
-/

set_option autoImplicit false

namespace XBoot

/-! ## Faults and C operators -/

/-- The two ways a translated function can leave defined behaviour. -/
inductive fault_t where
  | null_deref
  | out_of_bounds
  deriving DecidableEq, Repr

/-- C `v << n` on an `int` that does not overflow. -/
def shl (v : Int) (n : Nat) : Int := v * 2 ^ n

/-- C `v >> n` on an `int` (arithmetic shift: rounds towards minus infinity). -/
def shr (v : Int) (n : Nat) : Int := v / 2 ^ n

/-! ## Byte memory -/

/-- Read of a `uint32_t` at word index `k` of a byte buffer. -/
def load32 (mem : List Nat) (k : Int) : Except fault_t Nat :=
  if 0 ≤ k ∧ 4 * k + 4 ≤ mem.length then
    let o := (4 * k).toNat
    .ok (mem.getD o 0 + 256 * mem.getD (o + 1) 0 + 65536 * mem.getD (o + 2) 0
      + 16777216 * mem.getD (o + 3) 0)
  else .error .out_of_bounds

/-- The four bytes of a `uint32_t`, least significant first. -/
def bytes32 (v : Nat) : List Nat :=
  [v % 256, v / 256 % 256, v / 65536 % 256, v / 16777216 % 256]

/-- Write of a `uint32_t` at word index `k` of a byte buffer. -/
def store32 (mem : List Nat) (k : Int) (v : Nat) : Except fault_t (List Nat) :=
  if 0 ≤ k ∧ 4 * k + 4 ≤ mem.length then
    let o := (4 * k).toNat
    .ok (mem.take o ++ bytes32 v ++ mem.drop (o + 4))
  else .error .out_of_bounds

/-! ## Data model -/

/-- A colour at the API boundary: four 8-bit channels, not premultiplied. -/
structure color_t where
  r : Nat
  g : Nat
  b : Nat
  a : Nat
  deriving DecidableEq, Repr

/-- A caller supplied rectangle. -/
structure region_t where
  x : Int
  y : Int
  w : Int
  h : Int
  deriving DecidableEq, Repr

/-- A presentation backend.  `addr` is the identity of the record, `create`
receives the fields of the surface that are set when it is called (width,
height, stride, pixlen, pixels) and returns the context, `none` being NULL. -/
structure render_t where
  addr : Nat
  name : Option String
  create : Int → Int → Int → Int → List Nat → Option Nat

/-- The record `struct surface_t`. -/
structure surface_t where
  width : Int
  height : Int
  stride : Int
  pixlen : Int
  pixels : List Nat
  r : Option render_t
  pctx : Option Nat
  priv : Option Nat

/-- The invariant of the data model: stride and length are derived from the
size, and the buffer has exactly `pixlen` bytes. -/
def surface_t.wf (s : surface_t) : Prop :=
  0 ≤ s.width ∧ 0 ≤ s.height ∧ s.stride = 4 * s.width ∧ s.pixlen = s.height * s.stride
    ∧ (s.pixels.length : Int) = s.pixlen

/-! ## Colour conversion (header `graphic/color.h`, not among the sources) -/

/-- Modelled from the spec: the rounding `premul(a,c)` of the premultiplication
law, `((a*c + 128) + ((a*c + 128) >> 8)) >> 8`. -/
def premul (a c : Nat) : Nat :=
  ((a * c + 128) + ((a * c + 128) >>> 8)) >>> 8

/-- Modelled from the spec: `color_get_premult` is declared in a header that is
not among the sources; the stored word follows the premultiplication law
`(a<<24) | (premul(a,r)<<16) | (premul(a,g)<<8) | premul(a,b)`. -/
def color_get_premult (c : color_t) : Nat :=
  (c.a <<< 24) ||| (premul c.a c.r <<< 16) ||| (premul c.a c.g <<< 8) ||| premul c.a c.b

/-! ## Pixel access -/

/-- `surface_set_pixel` for a non-NULL surface; `c = none` is a NULL colour. -/
def surface_set_pixel (s : surface_t) (x y : Int) (c : Option color_t) :
    Except fault_t surface_t :=
  match c with
  | none => .ok s
  | some c =>
    if x < s.width ∧ y < s.height then
      match store32 s.pixels (y * shr s.stride 2 + x) (color_get_premult c) with
      | .ok px => .ok { s with pixels := px }
      | .error f => .error f
    else .ok s

/-- `surface_get_pixel` for a non-NULL surface.  `c` is the content of the
out-parameter before the call (`none`: a NULL pointer), the result its content
after the call.  `color_set_premult` is declared in a header that is not among
the sources and is a parameter. -/
def surface_get_pixel (color_set_premult : color_t → Nat → color_t)
    (s : surface_t) (x y : Int) (c : Option color_t) : Except fault_t (Option color_t) :=
  match c with
  | none => .ok none
  | some c =>
    if x < s.width ∧ y < s.height then
      match load32 s.pixels (y * shr s.stride 2 + x) with
      | .ok v => .ok (some (color_set_premult c v))
      | .error f => .error f
    else .ok (some { c with b := 0, g := 0, r := 0, a := 0 })

/-! ## Collaborators: heap, backend registry, trace -/

/-- A call to a collaborator, in the order the code makes them. -/
inductive event_t where
  | malloc
  | memalign (len : Int)
  | free_surface
  | free_pixels
  | create (addr : Nat)
  | destroy (addr : Nat) (pctx : Option Nat)
  | xfs_open_read (name : List Char)
  | xfs_read (len : Nat)
  | xfs_close
  deriving DecidableEq, Repr

/-- The heap as the code sees it: whether `malloc(sizeof(struct surface_t))`
and `memalign(4, len)` succeed, and the bytes an uninitialised block holds. -/
structure env_t where
  malloc_ok : Bool
  memalign_ok : Int → Bool
  garbage : Nat → Nat

/-- The block returned by a successful `memalign(4, len)`. -/
def fresh (env : env_t) (len : Int) : List Nat :=
  (List.range len.toNat).map env.garbage

/-- `memset(mem, c, n)` on a buffer. -/
def memset (mem : List Nat) (c : Nat) (n : Int) : Except fault_t (List Nat) :=
  if 0 ≤ n ∧ n ≤ mem.length then
    .ok (List.replicate n.toNat c ++ mem.drop n.toNat)
  else .error .out_of_bounds

/-- `memcpy(dst + doff, src + soff, n)` between two distinct buffers. -/
def memcpy (dst : List Nat) (doff : Int) (src : List Nat) (soff : Int) (n : Int) :
    Except fault_t (List Nat) :=
  if 0 ≤ n ∧ 0 ≤ doff ∧ doff + n ≤ dst.length ∧ 0 ≤ soff ∧ soff + n ≤ src.length then
    .ok (dst.take doff.toNat ++ (src.drop soff.toNat).take n.toNat
      ++ dst.drop (doff.toNat + n.toNat))
  else .error .out_of_bounds

/-- `search_render`: the first entry of `__render_list`, or NULL. -/
def search_render (render_list : List render_t) : Option render_t :=
  render_list.head?

/-- `surface_alloc`, with the registry `__render_list` as an argument. -/
def surface_alloc (env : env_t) (render_list : List render_t) (width height : Int)
    (priv : Option Nat) : Except fault_t (Option surface_t) × List event_t :=
  if width < 0 ∨ height < 0 then (.ok none, [])
  else if env.malloc_ok = false then (.ok none, [.malloc])
  else
    let stride := shl width 2
    let pixlen := height * stride
    if env.memalign_ok pixlen = false then
      (.ok none, [.malloc, .memalign pixlen, .free_surface])
    else
      match memset (fresh env pixlen) 0 pixlen with
      | .error f => (.error f, [.malloc, .memalign pixlen])
      | .ok pixels =>
        match search_render render_list with
        | none => (.error .null_deref, [.malloc, .memalign pixlen])
        | some r =>
          match r.create width height stride pixlen pixels with
          | none =>
            (.ok none, [.malloc, .memalign pixlen, .create r.addr, .free_surface, .free_pixels])
          | some ctx =>
            (.ok (some { width := width, height := height, stride := stride, pixlen := pixlen,
                         pixels := pixels, r := some r, pctx := some ctx, priv := priv }),
             [.malloc, .memalign pixlen, .create r.addr])

/-- The row loop of `surface_clone`:
`for(i = 0; i < height; i++, p += stride, q += l) memcpy(p, q, stride);`
with `n` the number of iterations left, `p` and `q` offsets into the
destination and the source buffer. -/
def clone_rows (src : List Nat) (stride l : Int) :
    Nat → List Nat → Int → Int → Except fault_t (List Nat)
  | 0, dst, _, _ => .ok dst
  | n + 1, dst, p, q =>
    match memcpy dst p src q stride with
    | .ok dst1 => clone_rows src stride l n dst1 (p + stride) (q + l)
    | .error f => .error f

/-- The end of `surface_clone`, shared by both branches: fill in the record and
ask the backend of the source for a context. -/
def clone_finish (s : surface_t) (width height stride pixlen : Int) (pixels : List Nat) :
    Except fault_t (Option surface_t) × List event_t :=
  match s.r with
  | none => (.error .null_deref, [.malloc, .memalign pixlen])
  | some r =>
    match r.create width height stride pixlen pixels with
    | none =>
      (.ok none, [.malloc, .memalign pixlen, .create r.addr, .free_surface, .free_pixels])
    | some ctx =>
      (.ok (some { width := width, height := height, stride := stride, pixlen := pixlen,
                   pixels := pixels, r := some r, pctx := some ctx, priv := none }),
       [.malloc, .memalign pixlen, .create r.addr])

/-- `surface_clone`. -/
def surface_clone (env : env_t) (s : Option surface_t) (r : Option region_t) :
    Except fault_t (Option surface_t) × List event_t :=
  match s with
  | none => (.ok none, [])
  | some s =>
    match r with
    | some r =>
      let x1 := max 0 r.x
      let x2 := min s.width (r.x + r.w)
      if x1 ≤ x2 then
        let y1 := max 0 r.y
        let y2 := min s.height (r.y + r.h)
        if y1 ≤ y2 then
          let width := x2 - x1
          let height := y2 - y1
          let stride := shl width 2
          let pixlen := height * stride
          if env.malloc_ok = false then (.ok none, [.malloc])
          else if env.memalign_ok pixlen = false then
            (.ok none, [.malloc, .memalign pixlen, .free_surface])
          else
            let l := s.stride
            match clone_rows s.pixels stride l height.toNat (fresh env pixlen) 0
                (y1 * l + shl x1 2) with
            | .error f => (.error f, [.malloc, .memalign pixlen])
            | .ok pixels => clone_finish s width height stride pixlen pixels
        else (.ok none, [])
      else (.ok none, [])
    | none =>
      let width := s.width
      let height := s.height
      let stride := s.stride
      let pixlen := s.pixlen
      if env.malloc_ok = false then (.ok none, [.malloc])
      else if env.memalign_ok pixlen = false then
        (.ok none, [.malloc, .memalign pixlen, .free_surface])
      else
        match memcpy (fresh env pixlen) 0 s.pixels 0 pixlen with
        | .error f => (.error f, [.malloc, .memalign pixlen])
        | .ok pixels => clone_finish s width height stride pixlen pixels

/-- The word of pixel `(x, y)` of a surface, addressed as `surface_get_pixel`
and `surface_set_pixel` do: `(uint32_t *)pixels + y * (stride >> 2) + x`. -/
def pixel_word (s : surface_t) (x y : Int) : Except fault_t Nat :=
  load32 s.pixels (y * shr s.stride 2 + x)

/-! ## Image decoding: read callbacks -/

/-- The outcome of the libpng read callback: it returns with the buffer and the
file as they are now, or it leaves through `png_error`. -/
inductive png_io_t (F : Type) where
  | returned (data : List Nat) (file : Option F)
  | png_error (msg : String)

/-- `png_xfs_read_data(png, data, length)`.  `png` is `png->io_ptr` when
`png` is not NULL; the file collaborator `xfs_read(file, buf, len)` is a
parameter that gives the bytes delivered and the file afterwards. -/
def png_xfs_read_data {F : Type} (xfs_read : F → Nat → List Nat × F)
    (png : Option F) (data : List Nat) (length : Nat) : png_io_t F :=
  match png with
  | none => .returned data none
  | some io_ptr =>
    let got := xfs_read io_ptr length
    let check := got.1.length
    if check ≠ length then .png_error "Read Error"
    else .returned (got.1 ++ data.drop check) (some got.2)

/-- The libjpeg message codes used by the source manager. -/
inductive jmsg_t where
  | JERR_INPUT_EMPTY
  | JWRN_JPEG_EOF
  deriving DecidableEq, Repr

/-- The record `struct my_source_mgr`; `next_input_byte` is an offset into
`buffer` (`none`: NULL). -/
structure my_source_mgr (F : Type) where
  next_input_byte : Option Nat
  bytes_in_buffer : Nat
  file : F
  buffer : List Nat
  start_of_file : Int

/-- The outcome of `fill_input_buffer`: it returns a boolean after zero or more
warnings (`WARNMS`), or it leaves through `ERREXIT`. -/
inductive jpeg_io_t (F : Type) where
  | returned (ret : Int) (warnings : List jmsg_t) (src : my_source_mgr F)
  | errexit (code : jmsg_t)

/-- The marker byte `JPEG_EOI` of `jpeglib.h`. -/
def JPEG_EOI : Nat := 0xD9

/-- `fill_input_buffer(cinfo)` on the source manager `cinfo->src`. -/
def fill_input_buffer {F : Type} (xfs_read : F → Nat → List Nat × F)
    (src : my_source_mgr F) : jpeg_io_t F :=
  let got := xfs_read src.file 4096
  let nbytes := got.1.length
  let buffer := got.1 ++ src.buffer.drop nbytes
  if nbytes ≤ 0 then
    if src.start_of_file ≠ 0 then .errexit .JERR_INPUT_EMPTY
    else
      .returned 1 [.JWRN_JPEG_EOF]
        { next_input_byte := some 0, bytes_in_buffer := 2, file := got.2,
          buffer := (buffer.set 0 0xFF).set 1 JPEG_EOI, start_of_file := 0 }
  else
    .returned 1 []
      { next_input_byte := some 0, bytes_in_buffer := nbytes, file := got.2,
        buffer := buffer, start_of_file := 0 }

/-! ## Image decoding: row transforms -/

/-- `multiply_alpha(alpha, color)`. -/
def multiply_alpha (alpha color : Int) : Int :=
  let temp := (alpha * color) + 0x80
  shr (temp + shr temp 8) 8

/-- Conversion of an `int` to `uint8_t`. -/
def to_u8 (v : Int) : Nat := (v % 256).toNat

/-- The body of the loop of `premultiply_data`: the word `p` computed from the
bytes `base[0..3]`. -/
def premultiply_pixel (base0 base1 base2 base3 : Nat) : Nat :=
  let alpha := base3
  if alpha = 0 then 0
  else
    let red := base0
    let green := base1
    let blue := base2
    let red := if alpha ≠ 0xff then to_u8 (multiply_alpha alpha red) else red
    let green := if alpha ≠ 0xff then to_u8 (multiply_alpha alpha green) else green
    let blue := if alpha ≠ 0xff then to_u8 (multiply_alpha alpha blue) else blue
    ((alpha <<< 24) ||| (red <<< 16) ||| (green <<< 8) ||| (blue <<< 0)) % 2 ^ 32

/-- `premultiply_data` on the `rowbytes` bytes of a row: every group of four
bytes is replaced by the bytes of its word `p` (`memcpy(base, &p, 4)`).  With
32-bit pixels `rowbytes` is a multiple of four. -/
def premultiply_data : List Nat → List Nat
  | base0 :: base1 :: base2 :: base3 :: rest =>
    bytes32 (premultiply_pixel base0 base1 base2 base3) ++ premultiply_data rest
  | rest => rest

/-! ## Image decoding: choice of the codec -/

/-- Modelled from the spec: `strchr` of the C library, not among the sources;
the result is the rest of the string from the first occurrence on. -/
def strchr : List Char → Char → Option (List Char)
  | [], _ => none
  | c :: cs, ch => if c = ch then some (c :: cs) else strchr cs ch

set_option linter.unusedVariables false in
/-- The loop of `fileext`, entered with `p` not NULL:
`while(p != NULL) { p = strchr(p + 1, '.'); if(p != NULL) ret = p; }`;
the result is the final `ret`. -/
def fileext_loop (ret p : List Char) : List Char :=
  match h : strchr (p.drop 1) '.' with
  | none => ret
  | some q => fileext_loop q q
termination_by p.length
decreasing_by
  have hle : ∀ (s q : List Char), strchr s '.' = some q → q.length ≤ s.length := by
    intro s
    induction s with
    | nil => intro q hq; simp [strchr] at hq
    | cons c cs ih =>
      intro q hq
      unfold strchr at hq
      split at hq
      · cases hq; exact le_refl _
      · exact Nat.le_succ_of_le (ih q hq)
  have h1 := hle _ _ h
  cases p with
  | nil => simp [strchr] at h
  | cons c cs => simp at h1 ⊢; omega

/-- `fileext(filename)`: the text after the last `'.'`, NULL without one. -/
def fileext (filename : Option (List Char)) : Option (List Char) :=
  match filename with
  | none => none
  | some f =>
    match strchr f '.' with
    | none => none
    | some p => some ((fileext_loop p p).drop 1)

/-- Modelled from the spec: `strcasecmp` of the C library, not among the
sources: the difference of the first two characters that differ when case is
ignored, `0` when there is none. -/
def strcasecmp : List Char → List Char → Int
  | [], [] => 0
  | [], c2 :: _ => 0 - (c2.toLower.toNat : Int)
  | c1 :: _, [] => (c1.toLower.toNat : Int)
  | c1 :: s1, c2 :: s2 =>
    if c1.toLower = c2.toLower then strcasecmp s1 s2
    else (c1.toLower.toNat : Int) - (c2.toLower.toNat : Int)

/-- `surface_alloc_from_xfs(ctx, filename)`.  The two decoders
`surface_alloc_from_xfs_png` and `surface_alloc_from_xfs_jpeg` drive the
external codecs and are parameters; a NULL extension is dereferenced by
`strcasecmp`. -/
def surface_alloc_from_xfs
    (surface_alloc_from_xfs_png surface_alloc_from_xfs_jpeg :
      Nat → Option (List Char) → Except fault_t (Option surface_t) × List event_t)
    (ctx : Nat) (filename : Option (List Char)) :
    Except fault_t (Option surface_t) × List event_t :=
  match fileext filename with
  | none => (.error .null_deref, [])
  | some ext =>
    if strcasecmp ext "png".toList = 0 then
      surface_alloc_from_xfs_png ctx filename
    else if strcasecmp ext "jpg".toList = 0 ∨ strcasecmp ext "jpeg".toList = 0 then
      surface_alloc_from_xfs_jpeg ctx filename
    else (.ok none, [])

/-! ## Clearing -/

/-- Modelled from the spec: `color_set_premult` is declared in a header that is
not among the sources; it decodes a stored word back into channel components:
the alpha field is returned as it is, the three premultiplied channels are
divided by `alpha / 255` (rounded), and alpha 0 gives `(0,0,0,0)`. -/
def color_set_premult (c : color_t) (v : Nat) : color_t :=
  let a := (v >>> 24) % 256
  if a = 0 then { c with r := 0, g := 0, b := 0, a := 0 }
  else
    { r := (((v >>> 16) % 256 * 255 + a / 2) / a) % 256,
      g := (((v >>> 8) % 256 * 255 + a / 2) / a) % 256,
      b := ((v % 256 * 255 + a / 2) / a) % 256,
      a := a }

/-- The value `v` of `surface_clear`: `c ? color_get_premult(c) : 0`, as the
`uint32_t` it is stored in. -/
def clear_value (c : Option color_t) : Nat :=
  match c with
  | some c => color_get_premult c % 2 ^ 32
  | none => 0

/-- A loop that stores `v` into `n` consecutive words from word index `p` on:
the inner loop `for(x = x1, p = q; x < x2; x++, p++) *p = v;` of
`surface_clear`, and its loop `while(l--) *p++ = v;`. -/
def clear_row (v : Nat) : Nat → List Nat → Int → Except fault_t (List Nat)
  | 0, mem, _ => .ok mem
  | n + 1, mem, p =>
    match store32 mem p v with
    | .ok mem1 => clear_row v n mem1 (p + 1)
    | .error f => .error f

/-- The outer loop of `surface_clear`:
`for(y = y1; y < y2; y++, q += l) { ... }` with `n` the number of rows left,
`cols` the number of iterations of the inner loop and `q` a word index. -/
def clear_rows (v : Nat) (l : Int) (cols : Nat) :
    Nat → List Nat → Int → Except fault_t (List Nat)
  | 0, mem, _ => .ok mem
  | n + 1, mem, q =>
    match clear_row v cols mem q with
    | .ok mem1 => clear_rows v l cols n mem1 (q + l)
    | .error f => .error f

/-- `surface_clear` for a non-NULL surface.  A negative count `l` of the loop
`while(l--)` makes it run past the buffer. -/
def surface_clear (s : surface_t) (c : Option color_t) (r : Option region_t) :
    Except fault_t surface_t :=
  let v := clear_value c
  match r with
  | some r =>
    let x1 := max 0 r.x
    let x2 := min s.width (r.x + r.w)
    if x1 ≤ x2 then
      let y1 := max 0 r.y
      let y2 := min s.height (r.y + r.h)
      if y1 ≤ y2 then
        let l := shr s.stride 2
        match clear_rows v l (x2 - x1).toNat (y2 - y1).toNat s.pixels (y1 * l + x1) with
        | .ok px => .ok { s with pixels := px }
        | .error f => .error f
      else .ok s
    else .ok s
  | none =>
    if v ≠ 0 then
      if v = 0xffffffff then
        match memset s.pixels 0xff s.pixlen with
        | .ok px => .ok { s with pixels := px }
        | .error f => .error f
      else
        let l := s.width * s.height
        if l < 0 then .error .out_of_bounds
        else
          match clear_row v l.toNat s.pixels 0 with
          | .ok px => .ok { s with pixels := px }
          | .error f => .error f
    else
      match memset s.pixels 0 s.pixlen with
      | .ok px => .ok { s with pixels := px }
      | .error f => .error f

/-! ## Release -/

/-- `surface_free`: the calls it makes, in order. -/
def surface_free (s : Option surface_t) : List event_t :=
  match s with
  | none => []
  | some s =>
    match s.r with
    | some r => [.destroy r.addr s.pctx, .free_pixels, .free_surface]
    | none => [.free_pixels, .free_surface]

/-! ## The registry of backends -/

/-- Modelled from the spec: `list_add` of `list.h`, not among the sources: the
entry is inserted at the head of the list. -/
def list_add (r : render_t) (render_list : List render_t) : List render_t :=
  r :: render_list

/-- Modelled from the spec: `list_del` of `list.h`, not among the sources: the
entry is removed from the list by identity. -/
def list_del (r : render_t) (render_list : List render_t) : List render_t :=
  render_list.eraseP (fun x => x.addr == r.addr)

/-- `register_render`, with the registry `__render_list` before and after the
call.  The lock is not modelled; `init_list_head(&r->list)` prepares the node
of `r` and does not touch the registry. -/
def register_render (render_list : List render_t) (r : Option render_t) :
    Bool × List render_t :=
  match r with
  | none => (false, render_list)
  | some r =>
    if r.name = none then (false, render_list)
    else (true, list_add r render_list)

/-- `unregister_render`, with the registry before and after the call. -/
def unregister_render (render_list : List render_t) (r : Option render_t) :
    Bool × List render_t :=
  match r with
  | none => (false, render_list)
  | some r =>
    if r.name = none then (false, render_list)
    else (true, list_del r render_list)

/-! ## Image decoding: the opaque row transform -/

/-- The body of the loop of `convert_bytes_to_data`: the word `pixel`. -/
def convert_pixel (base0 base1 base2 : Nat) : Nat :=
  let red := base0
  let green := base1
  let blue := base2
  ((0xff <<< 24) ||| (red <<< 16) ||| (green <<< 8) ||| (blue <<< 0)) % 2 ^ 32

/-- `convert_bytes_to_data` on the `rowbytes` bytes of a row. -/
def convert_bytes_to_data : List Nat → List Nat
  | base0 :: base1 :: base2 :: _ :: rest =>
    bytes32 (convert_pixel base0 base1 base2) ++ convert_bytes_to_data rest
  | rest => rest

/-! ## Rows of pixels -/

/-- A row of 4-byte pixels, from the four bytes of each pixel. -/
def row_bytes : List (Nat × Nat × Nat × Nat) → List Nat
  | [] => []
  | p :: rest => p.1 :: p.2.1 :: p.2.2.1 :: p.2.2.2 :: row_bytes rest

/-- A row of 4-byte pixels, from the 32-bit word of each pixel. -/
def row_words : List Nat → List Nat
  | [] => []
  | w :: rest => bytes32 w ++ row_words rest

/-! ## Concrete inputs -/

/-- A backend whose `create` always succeeds with context `1`. -/
def demo_render : render_t :=
  { addr := 7, name := some "fb", create := fun _ _ _ _ _ => some 1 }

/-- A second backend, with another identity. -/
def demo_render_2 : render_t :=
  { addr := 8, name := some "fb-hw", create := fun _ _ _ _ _ => some 2 }

/-- A heap on which every allocation succeeds; fresh memory holds `0xAA`. -/
def demo_env : env_t :=
  { malloc_ok := true, memalign_ok := fun _ => true, garbage := fun _ => 0xAA }

/-- A 2 x 2 surface with the given sixteen bytes. -/
def demo_surface (pixels : List Nat) : surface_t :=
  { width := 2, height := 2, stride := 8, pixlen := 16, pixels := pixels,
    r := some demo_render, pctx := some 1, priv := none }

/-- Sixteen zero bytes: four fully transparent pixels. -/
def demo_zero : List Nat := List.replicate 16 0

/-- Four pixels of which only pixel `(1, 0)` is set, to opaque white. -/
def demo_one_white : List Nat := [0, 0, 0, 0, 255, 255, 255, 255, 0, 0, 0, 0, 0, 0, 0, 0]

/-- Four pixels with sixteen different bytes. -/
def demo_ramp : List Nat := List.range 16

/-- The clone of the lower right pixel of `demo_surface demo_ramp`. -/
def demo_clone : surface_t :=
  { width := 1, height := 1, stride := 4, pixlen := 4, pixels := [12, 13, 14, 15],
    r := some demo_render, pctx := some 1, priv := none }

/-- The clone of the lower left pixel of `demo_surface demo_ramp`. -/
def demo_clone_2 : surface_t :=
  { width := 1, height := 1, stride := 4, pixlen := 4, pixels := [8, 9, 10, 11],
    r := some demo_render, pctx := some 1, priv := none }

/-- Opaque white. -/
def demo_white : color_t := { r := 255, g := 255, b := 255, a := 255 }

/-- A decoder that only splits the stored word into its four fields. -/
def demo_decode (_ : color_t) (v : Nat) : color_t :=
  { r := v / 65536 % 256, g := v / 256 % 256, b := v % 256, a := v / 16777216 % 256 }

/-- A file collaborator: the file is the list of bytes not yet read, a read
delivers as many of the requested bytes as are left. -/
def demo_xfs_read (file : List Nat) (len : Nat) : List Nat × List Nat :=
  (file.take len, file.drop len)

/-- A decoder stand-in that only records, by an open of the name `[tag]`, that
it was called. -/
def codec_probe (tag : Char) (_ : Nat) (_ : Option (List Char)) :
    Except fault_t (Option surface_t) × List event_t :=
  (.ok none, [.xfs_open_read [tag]])

/-! ## Pixel access: behaviour outside of the surface -/

theorem surface_set_pixel_beyond (s : surface_t) (x y : Int) (c : Option color_t)
    (h : s.width ≤ x ∨ s.height ≤ y) : surface_set_pixel s x y c = .ok s := by
  unfold surface_set_pixel
  cases c with
  | none => rfl
  | some c =>
    have : ¬ (x < s.width ∧ y < s.height) := by omega
    simp [this]

theorem surface_get_pixel_beyond (dec : color_t → Nat → color_t) (s : surface_t) (x y : Int)
    (c : color_t) (h : s.width ≤ x ∨ s.height ≤ y) :
    surface_get_pixel dec s x y (some c) = .ok (some { r := 0, g := 0, b := 0, a := 0 }) := by
  unfold surface_get_pixel
  have : ¬ (x < s.width ∧ y < s.height) := by omega
  simp [this]

/-- C1: at the out-of-bounds coordinate `(-1, 1)` of a 2 x 2 surface
`surface_set_pixel` is not a no-op: only the upper bounds are tested, the write
goes to word `1 * 2 - 1 = 1`, and pixel `(1, 0)` changes from `0` to the
premultiplied value of the colour. -/
theorem surface_set_pixel_negative_x_writes :
    pixel_word (demo_surface demo_zero) 1 0 = .ok 0
    ∧ (surface_set_pixel (demo_surface demo_zero) (-1) 1 (some demo_white)).toOption.map
        surface_t.pixels = some demo_one_white
    ∧ (surface_set_pixel (demo_surface demo_zero) (-1) 1 (some demo_white)).toOption.map
        (fun s => pixel_word s 1 0) = some (.ok 0xffffffff) := by
  refine ⟨rfl, by decide, rfl⟩

/-- C2: at the out-of-bounds coordinate `(-1, 1)` of a 2 x 2 surface
`surface_get_pixel` does not set the colour to `(0,0,0,0)`: only the upper
bounds are tested, the read comes from word `1`, and the colour is the decoded
pixel `(1, 0)`, for every decoder and every previous content of the colour. -/
theorem surface_get_pixel_negative_x_reads :
    (∀ (dec : color_t → Nat → color_t) (c : color_t),
      surface_get_pixel dec (demo_surface demo_one_white) (-1) 1 (some c)
        = .ok (some (dec c 0xffffffff)))
    ∧ surface_get_pixel demo_decode (demo_surface demo_one_white) (-1) 1 (some demo_white)
        = .ok (some { r := 255, g := 255, b := 255, a := 255 }) := by
  refine ⟨fun dec c => rfl, rfl⟩

/-! ## Allocation without a backend -/

theorem surface_alloc_no_render (env : env_t) (width height : Int) (priv : Option Nat)
    (hw : 0 ≤ width) (hh : 0 ≤ height) (hm : env.malloc_ok = true)
    (ha : env.memalign_ok (height * shl width 2) = true) :
    surface_alloc env [] width height priv
      = (.error .null_deref, [.malloc, .memalign (height * shl width 2)]) := by
  have hp : 0 ≤ height * shl width 2 := by
    unfold shl
    positivity
  have hlen : ((fresh env (height * shl width 2)).length : Int) = height * shl width 2 := by
    simp [fresh, Int.toNat_of_nonneg hp]
  unfold surface_alloc
  have c1 : ¬ (width < 0 ∨ height < 0) := by omega
  have c2 : (0 : Int) ≤ height * shl width 2
      ∧ height * shl width 2 ≤ ((fresh env (height * shl width 2)).length : Int) :=
    ⟨hp, le_of_eq hlen.symm⟩
  simp only [if_neg c1, hm, ha, memset, if_pos c2, search_render]
  simp

/-- C4: with an empty registry and a heap on which the allocations succeed,
`surface_alloc(1, 1, NULL)` does not return NULL: `search_render()` gives NULL
and `s->r->create` dereferences it, after the record and the buffer were
allocated and before anything is freed. -/
theorem surface_alloc_empty_registry_faults :
    search_render [] = none
    ∧ (surface_alloc demo_env [] 1 1 none).1 = .error .null_deref
    ∧ (surface_alloc demo_env [] 1 1 none).2 = [.malloc, .memalign 4] := by
  refine ⟨rfl, rfl, rfl⟩

/-! ## Choice of the codec -/

theorem surface_alloc_from_xfs_unknown
    (png jpeg : Nat → Option (List Char) → Except fault_t (Option surface_t) × List event_t)
    (ctx : Nat) (filename : Option (List Char)) (ext : List Char)
    (hext : fileext filename = some ext)
    (h1 : strcasecmp ext "png".toList ≠ 0) (h2 : strcasecmp ext "jpg".toList ≠ 0)
    (h3 : strcasecmp ext "jpeg".toList ≠ 0) :
    surface_alloc_from_xfs png jpeg ctx filename = (.ok none, []) := by
  unfold surface_alloc_from_xfs
  rw [hext]
  simp only [if_neg h1, h2, h3, or_self, if_false]

theorem strchr_none_of_not_mem (f : List Char) (ch : Char) (h : ch ∉ f) :
    strchr f ch = none := by
  induction f with
  | nil => rfl
  | cons c cs ih =>
    have h1 : ¬ c = ch := fun e => h (by rw [e]; exact List.mem_cons_self _ _)
    have h2 : ch ∉ cs := fun e => h (List.mem_cons_of_mem _ e)
    simp [strchr, h1, ih h2]

theorem surface_alloc_from_xfs_no_dot
    (png jpeg : Nat → Option (List Char) → Except fault_t (Option surface_t) × List event_t)
    (ctx : Nat) (f : List Char) (h : '.' ∉ f) :
    surface_alloc_from_xfs png jpeg ctx (some f) = (.error .null_deref, []) := by
  have hext : fileext (some f) = none := by
    simp [fileext, strchr_none_of_not_mem f '.' h]
  unfold surface_alloc_from_xfs
  rw [hext]

/-- C5: for the file name `README`, which has no `'.'`, `fileext` returns NULL
and `surface_alloc_from_xfs` passes it to `strcasecmp`, which dereferences it:
the call does not return NULL, whatever the decoders are. -/
theorem surface_alloc_from_xfs_no_extension_faults :
    fileext (some "README".toList) = none
    ∧ ∀ (png jpeg : Nat → Option (List Char) →
          Except fault_t (Option surface_t) × List event_t) (ctx : Nat),
        surface_alloc_from_xfs png jpeg ctx (some "README".toList)
          = (.error .null_deref, []) := by
  refine ⟨by decide, fun png jpeg ctx => ?_⟩
  have h : fileext (some "README".toList) = none := by decide
  unfold surface_alloc_from_xfs
  rw [h]

/-! ## Read callbacks -/

theorem fill_input_buffer_of_pos {F : Type} (xfs_read : F → Nat → List Nat × F)
    (src : my_source_mgr F) (hpos : 0 < (xfs_read src.file 4096).1.length) :
    fill_input_buffer xfs_read src = .returned 1 []
      { next_input_byte := some 0,
        bytes_in_buffer := (xfs_read src.file 4096).1.length,
        file := (xfs_read src.file 4096).2,
        buffer := (xfs_read src.file 4096).1
          ++ src.buffer.drop (xfs_read src.file 4096).1.length,
        start_of_file := 0 } := by
  have : ¬ (xfs_read src.file 4096).1.length ≤ 0 := by omega
  simp [fill_input_buffer, this]

/-- C6 (as stated, for the JPEG callback): a read that delivers 3 of the 4096
requested bytes is not a fatal error for `fill_input_buffer`; it returns TRUE
without a warning and hands the 3 bytes to the codec. -/
theorem fill_input_buffer_short_read_returns :
    (demo_xfs_read [1, 2, 3] 4096).1.length = 3
    ∧ ∃ src1 : my_source_mgr (List Nat),
        fill_input_buffer demo_xfs_read
          { next_input_byte := none, bytes_in_buffer := 0, file := [1, 2, 3],
            buffer := List.replicate 4096 0, start_of_file := 1 }
          = .returned 1 [] src1
        ∧ src1.bytes_in_buffer = 3 ∧ src1.buffer.take 3 = [1, 2, 3] := by
  have hlen : (demo_xfs_read [1, 2, 3] 4096).1.length = 3 := by decide
  have hval : (demo_xfs_read [1, 2, 3] 4096).1 = [1, 2, 3] := by decide
  refine ⟨hlen, _, fill_input_buffer_of_pos demo_xfs_read _ (by rw [hlen]; decide), hlen, ?_⟩
  simp only [hval]
  rfl

/-- C6 (amended): when the read delivers fewer bytes than requested,
`png_xfs_read_data` leaves through `png_error("Read Error")`, while
`fill_input_buffer` leaves through `ERREXIT(JERR_INPUT_EMPTY)` exactly when no
byte was delivered and the source is at the start of the file; with no byte
later in the file it warns and hands the codec a synthetic end-of-image marker,
and with at least one byte it hands the bytes read to the codec. -/
theorem read_callbacks_short_read {F : Type} (xfs_read : F → Nat → List Nat × F)
    (io_ptr : F) (data : List Nat) (length : Nat) (src : my_source_mgr F)
    (hpng : (xfs_read io_ptr length).1.length < length)
    (hjpeg : (xfs_read src.file 4096).1.length < 4096) :
    png_xfs_read_data xfs_read (some io_ptr) data length = .png_error "Read Error"
    ∧ (fill_input_buffer xfs_read src = .errexit .JERR_INPUT_EMPTY
        ↔ ((xfs_read src.file 4096).1.length = 0 ∧ src.start_of_file ≠ 0))
    ∧ ((xfs_read src.file 4096).1.length = 0 → src.start_of_file = 0 →
        fill_input_buffer xfs_read src = .returned 1 [.JWRN_JPEG_EOF]
          { next_input_byte := some 0, bytes_in_buffer := 2, file := (xfs_read src.file 4096).2,
            buffer := (src.buffer.set 0 0xFF).set 1 JPEG_EOI, start_of_file := 0 })
    ∧ (0 < (xfs_read src.file 4096).1.length →
        fill_input_buffer xfs_read src = .returned 1 []
          { next_input_byte := some 0,
            bytes_in_buffer := (xfs_read src.file 4096).1.length,
            file := (xfs_read src.file 4096).2,
            buffer := (xfs_read src.file 4096).1
              ++ src.buffer.drop (xfs_read src.file 4096).1.length,
            start_of_file := 0 }) := by
  refine ⟨?_, ?_, ?_, ?_⟩
  · have h : (xfs_read io_ptr length).1.length ≠ length := by omega
    simp [png_xfs_read_data, h]
  · unfold fill_input_buffer
    by_cases h0 : (xfs_read src.file 4096).1.length = 0
    · by_cases hs : src.start_of_file = 0
      · simp [h0, hs]
      · simp [h0, hs]
    · have : ¬ (xfs_read src.file 4096).1.length ≤ 0 := by omega
      simp [h0, this]
  · intro h0 hs
    have hnil : (xfs_read src.file 4096).1 = [] := List.length_eq_zero.mp h0
    simp [fill_input_buffer, h0, hs, hnil]
  · intro hpos
    exact fill_input_buffer_of_pos xfs_read src hpos

theorem read_callbacks_short_read_witness :
    (demo_xfs_read [1, 2, 3] 8).1.length < 8
    ∧ (demo_xfs_read [] 4096).1.length < 4096
    ∧ png_xfs_read_data demo_xfs_read (some [1, 2, 3]) (List.replicate 8 0) 8
        = .png_error "Read Error"
    ∧ (fill_input_buffer demo_xfs_read
          { next_input_byte := none, bytes_in_buffer := 0, file := ([] : List Nat),
            buffer := [0, 0, 0, 0], start_of_file := 1 }
        = .errexit .JERR_INPUT_EMPTY
        ↔ ((demo_xfs_read [] 4096).1.length = 0 ∧ (1 : Int) ≠ 0)) :=
  have h := read_callbacks_short_read demo_xfs_read [1, 2, 3] (List.replicate 8 0) 8
    { next_input_byte := none, bytes_in_buffer := 0, file := ([] : List Nat),
      buffer := [0, 0, 0, 0], start_of_file := 1 } (by decide) (by decide)
  ⟨by decide, by decide, h.1, h.2.1⟩

/-! ## Premultiplication -/


theorem multiply_alpha_eq (a c : Int) (ha0 : 0 ≤ a) (ha : a ≤ 255) (hc0 : 0 ≤ c) (hc : c ≤ 255) :
    multiply_alpha a c = (2 * a * c + 255) / 510 := by
  have h0 : 0 ≤ a * c := Int.mul_nonneg ha0 hc0
  have h1 : a * c ≤ 255 * 255 := Int.mul_le_mul ha hc hc0 (by norm_num)
  unfold multiply_alpha shr
  have e : 2 * a * c = 2 * (a * c) := by ring
  rw [e]
  generalize a * c = t at h0 h1 ⊢
  norm_num
  omega

theorem premul_eq (a c : Nat) : premul a c = ((a * c + 128) + (a * c + 128) / 256) / 256 := by
  unfold premul
  simp [Nat.shiftRight_eq_div_pow]

theorem to_u8_multiply_alpha (a c : Nat) (ha : a ≤ 255) (hc : c ≤ 255) :
    to_u8 (multiply_alpha a c) = premul a c := by
  have h1 : a * c ≤ 255 * 255 := Nat.mul_le_mul ha hc
  rw [premul_eq]
  unfold to_u8 multiply_alpha shr
  have e : (a : Int) * (c : Int) = ((a * c : Nat) : Int) := by push_cast; rfl
  rw [e]
  generalize a * c = t at h1 ⊢
  norm_num
  omega


theorem premul_lt (a c : Nat) (ha : a ≤ 255) (hc : c ≤ 255) : premul a c ≤ 255 := by
  have h1 : a * c ≤ 255 * 255 := Nat.mul_le_mul ha hc
  rw [premul_eq]
  generalize a * c = t at h1 ⊢
  omega

theorem premul_255 (c : Nat) (hc : c ≤ 255) : premul 255 c = c := by
  rw [premul_eq]; omega

theorem premul_zero (c : Nat) : premul 0 c = 0 := by
  rw [premul_eq]; simp

theorem argb_lt (a r g b : Nat) (ha : a ≤ 255) (hr : r ≤ 255) (hg : g ≤ 255) (hb : b ≤ 255) :
    (a <<< 24) ||| (r <<< 16) ||| (g <<< 8) ||| b < 2 ^ 32 := by
  have h1 : a <<< 24 < 2 ^ 32 := by rw [Nat.shiftLeft_eq]; omega
  have h2 : r <<< 16 < 2 ^ 32 := by rw [Nat.shiftLeft_eq]; omega
  have h3 : g <<< 8 < 2 ^ 32 := by rw [Nat.shiftLeft_eq]; omega
  have h4 : b < 2 ^ 32 := by omega
  exact Nat.or_lt_two_pow (Nat.or_lt_two_pow (Nat.or_lt_two_pow h1 h2) h3) h4

theorem premultiply_pixel_eq (r g b a : Nat) (hr : r ≤ 255) (hg : g ≤ 255) (hb : b ≤ 255)
    (ha : a ≤ 255) : premultiply_pixel r g b a = color_get_premult ⟨r, g, b, a⟩ := by
  unfold premultiply_pixel color_get_premult
  by_cases h0 : a = 0
  · subst h0
    simp [premul_zero]
  · by_cases h255 : a = 255
    · subst h255
      simp only [premul_255 _ hr, premul_255 _ hg, premul_255 _ hb]
      simp only [Nat.shiftLeft_zero]
      have h := argb_lt 255 r g b (by omega) hr hg hb
      simp only [show ¬ ((255 : Nat) = 0) by decide, show ¬ ((255 : Nat) ≠ 0xff) by decide,
        if_false]
      exact Nat.mod_eq_of_lt h
    · have e : a ≠ 0xff := h255
      simp only [h0, e, if_false, ne_eq, not_false_eq_true, if_true,
        to_u8_multiply_alpha _ _ ha hr, to_u8_multiply_alpha _ _ ha hg,
        to_u8_multiply_alpha _ _ ha hb, Nat.shiftLeft_zero]
      exact Nat.mod_eq_of_lt (argb_lt a _ _ _ ha (premul_lt _ _ ha hr) (premul_lt _ _ ha hg)
        (premul_lt _ _ ha hb))

theorem premultiply_data_append :
    ∀ (pre rest : List Nat), pre.length % 4 = 0 →
      premultiply_data (pre ++ rest) = premultiply_data pre ++ premultiply_data rest
  | [], rest, _ => by simp [premultiply_data]
  | [_], _, h => by simp at h
  | [_, _], _, h => by simp at h
  | [_, _, _], _, h => by simp at h
  | b0 :: b1 :: b2 :: b3 :: pre, rest, h => by
    have h4 : pre.length % 4 = 0 := by
      simp only [List.length_cons] at h
      omega
    have ih := premultiply_data_append pre rest h4
    simp [premultiply_data, ih]

/-- C7: in a row of `premultiply_data`, the pixel with the bytes `r, g, b, a`
(each in 0..255) at pixel position `pre.length / 4` is replaced by the four
bytes of the word of the premultiplication law,
`(a<<24) | (premul(a,r)<<16) | (premul(a,g)<<8) | premul(a,b)`, which is `0`
when `a = 0` and `0xff000000 | (r<<16) | (g<<8) | b` when `a = 255`, the case
that skips `multiply_alpha`. -/
theorem premultiply_data_law (pre post : List Nat) (r g b a : Nat)
    (hpre : pre.length % 4 = 0)
    (hr : r ≤ 255) (hg : g ≤ 255) (hb : b ≤ 255) (ha : a ≤ 255) :
    premultiply_data (pre ++ r :: g :: b :: a :: post)
        = premultiply_data pre
          ++ bytes32 ((a <<< 24) ||| (premul a r <<< 16) ||| (premul a g <<< 8) ||| premul a b)
          ++ premultiply_data post
    ∧ (a = 0 →
        (a <<< 24) ||| (premul a r <<< 16) ||| (premul a g <<< 8) ||| premul a b = 0)
    ∧ (a = 255 →
        (a <<< 24) ||| (premul a r <<< 16) ||| (premul a g <<< 8) ||| premul a b
          = 0xff000000 ||| (r <<< 16) ||| (g <<< 8) ||| b)
    ∧ load32 (bytes32 (premultiply_pixel r g b a) ++ premultiply_data post) 0
        = .ok ((a <<< 24) ||| (premul a r <<< 16) ||| (premul a g <<< 8) ||| premul a b) := by
  have hp := premultiply_pixel_eq r g b a hr hg hb ha
  unfold color_get_premult at hp
  simp only at hp
  refine ⟨?_, ?_, ?_, ?_⟩
  · rw [premultiply_data_append pre _ hpre]
    simp only [premultiply_data, hp, List.append_assoc]
  · intro h; subst h; simp [premul_zero]
  · intro h; subst h
    simp [premul_255 _ hr, premul_255 _ hg, premul_255 _ hb]
  · rw [hp]
    have hlt := argb_lt a _ _ _ ha (premul_lt _ _ ha hr) (premul_lt _ _ ha hg)
      (premul_lt _ _ ha hb)
    generalize (a <<< 24) ||| (premul a r <<< 16) ||| (premul a g <<< 8) ||| premul a b = v
      at hlt ⊢
    clear hp
    simp only [load32, bytes32, List.cons_append, List.length_cons, Int.toNat_zero,
      List.getD_cons_zero, List.getD_cons_succ, mul_zero, zero_add, Nat.cast_add, Nat.cast_one]
    rw [if_pos (by omega)]
    congr 1
    omega

theorem premultiply_data_law_witness :
    ([1, 2, 3, 255] : List Nat).length % 4 = 0
    ∧ premultiply_data ([1, 2, 3, 255] ++ 255 :: 255 :: 255 :: 128 :: [9, 9, 9, 0])
        = premultiply_data [1, 2, 3, 255]
          ++ bytes32 ((128 <<< 24) ||| (premul 128 255 <<< 16) ||| (premul 128 255 <<< 8)
              ||| premul 128 255)
          ++ premultiply_data [9, 9, 9, 0] :=
  ⟨by decide, (premultiply_data_law [1, 2, 3, 255] [9, 9, 9, 0] 255 255 255 128 (by decide)
    (by decide) (by decide) (by decide) (by decide)).1⟩

/-- C8: for `a` and `c` in 0..255, `multiply_alpha(a, c)` is
`floor((2*a*c + 255) / 510)`, the integer `m` nearest to `a*c/255` with halves
rounded up: `m - 1/2 ≤ a*c/255 < m + 1/2`. -/
theorem multiply_alpha_rounds (a c : Int) (ha0 : 0 ≤ a) (ha : a ≤ 255) (hc0 : 0 ≤ c)
    (hc : c ≤ 255) :
    multiply_alpha a c = ((a * c + 128) + (a * c + 128) / 256) / 256
    ∧ multiply_alpha a c = (2 * a * c + 255) / 510
    ∧ 255 * (2 * multiply_alpha a c - 1) ≤ 2 * (a * c)
    ∧ 2 * (a * c) < 255 * (2 * multiply_alpha a c + 1) := by
  have h := multiply_alpha_eq a c ha0 ha hc0 hc
  have e : 2 * a * c = 2 * (a * c) := by ring
  refine ⟨?_, h, ?_, ?_⟩
  · unfold multiply_alpha shr
    norm_num
  · rw [h, e]
    generalize a * c = t
    omega
  · rw [h, e]
    generalize a * c = t
    omega

theorem multiply_alpha_rounds_witness :
    (0 : Int) ≤ 128 ∧ (128 : Int) ≤ 255 ∧ (0 : Int) ≤ 255 ∧ (255 : Int) ≤ 255
    ∧ multiply_alpha 128 255 = (2 * 128 * 255 + 255) / 510 :=
  ⟨by decide, by decide, by decide, by decide,
    (multiply_alpha_rounds 128 255 (by decide) (by decide) (by decide) (by decide)).2.1⟩

/-! ## Cloning -/


theorem memcpy_nat (dst src : List Nat) (P Q N : Nat) (h1 : P + N ≤ dst.length)
    (h2 : Q + N ≤ src.length) :
    memcpy dst P src Q N = .ok (dst.take P ++ (src.drop Q).take N ++ dst.drop (P + N)) := by
  unfold memcpy
  have c : (0:Int) ≤ (N:Int) ∧ (0:Int) ≤ (P:Int) ∧ (P:Int) + N ≤ dst.length ∧ (0:Int) ≤ (Q:Int)
      ∧ (Q:Int) + N ≤ src.length := by
    refine ⟨by omega, by omega, by exact_mod_cast h1, by omega, by exact_mod_cast h2⟩
  rw [if_pos c]
  simp

theorem memcpy_nat_length (dst src : List Nat) (P Q N : Nat) (h1 : P + N ≤ dst.length)
    (h2 : Q + N ≤ src.length) :
    (dst.take P ++ (src.drop Q).take N ++ dst.drop (P + N)).length = dst.length := by
  simp
  omega

theorem memcpy_nat_get (dst src : List Nat) (P Q N : Nat) (h1 : P + N ≤ dst.length)
    (h2 : Q + N ≤ src.length) (k : Nat) :
    (dst.take P ++ (src.drop Q).take N ++ dst.drop (P + N))[k]?
      = if P ≤ k ∧ k < P + N then src[Q + (k - P)]? else dst[k]? := by
  by_cases hk1 : k < P
  · have : ¬ (P ≤ k ∧ k < P + N) := by omega
    rw [if_neg this, List.append_assoc, List.getElem?_append_left (by simp; omega)]
    rw [List.getElem?_take_of_lt hk1]
  · by_cases hk2 : k < P + N
    · rw [if_pos ⟨by omega, hk2⟩, List.append_assoc,
        List.getElem?_append_right (by simp; omega),
        List.getElem?_append_left (by simp; omega)]
      simp only [List.length_take]
      rw [List.getElem?_take_of_lt (by omega), List.getElem?_drop]
      congr 1
      omega
    · have : ¬ (P ≤ k ∧ k < P + N) := by omega
      rw [if_neg this, List.getElem?_append_right (by simp; omega)]
      simp only [List.length_append, List.length_take, List.length_drop]
      rw [List.getElem?_drop]
      congr 1
      omega

theorem clone_rows_nat (src : List Nat) (S L : Nat) :
    ∀ (n : Nat) (dst : List Nat) (P Q : Nat), P + n * S ≤ dst.length →
      (∀ i, i < n → Q + i * L + S ≤ src.length) →
      ∃ res, clone_rows src S L n dst P Q = .ok res ∧ res.length = dst.length
        ∧ (∀ i b, i < n → b < S → res[P + i * S + b]? = src[Q + i * L + b]?)
        ∧ (∀ k, (k < P ∨ P + n * S ≤ k) → res[k]? = dst[k]?) := by
  intro n
  induction n with
  | zero =>
    intro dst P Q _ _
    exact ⟨dst, rfl, rfl, fun i b hi _ => absurd hi (Nat.not_lt_zero _), fun k _ => rfl⟩
  | succ n ih =>
    intro dst P Q hP hQ
    have e1 : (n + 1) * S = n * S + S := Nat.succ_mul n S
    have hPS : P + S ≤ dst.length := by omega
    have hQS : Q + S ≤ src.length := by
      have := hQ 0 (Nat.succ_pos n)
      omega
    have hlen := memcpy_nat_length dst src P Q S hPS hQS
    obtain ⟨res, hres, hl, hrow, hout⟩ :=
      ih (dst.take P ++ (src.drop Q).take S ++ dst.drop (P + S)) (P + S) (Q + L)
        (by rw [hlen]; omega)
        (fun i hi => by
          have := hQ (i + 1) (Nat.succ_lt_succ hi)
          have e2 : (i + 1) * L = i * L + L := Nat.succ_mul i L
          omega)
    refine ⟨res, ?_, by rw [hl, hlen], ?_, ?_⟩
    · show (match memcpy dst P src Q S with
        | .ok dst1 => clone_rows src S L n dst1 (P + S) (Q + L)
        | .error f => .error f) = .ok res
      rw [memcpy_nat dst src P Q S hPS hQS]
      simp only
      have c1 : ((P : Int) + (S : Int)) = ((P + S : Nat) : Int) := by push_cast; rfl
      have c2 : ((Q : Int) + (L : Int)) = ((Q + L : Nat) : Int) := by push_cast; rfl
      rw [c1, c2]
      exact hres
    · intro i b hi hb
      cases i with
      | zero =>
        have h1 := hout (P + 0 * S + b) (Or.inl (by omega))
        rw [h1, memcpy_nat_get dst src P Q S hPS hQS, if_pos ⟨by omega, by omega⟩]
        congr 1
        omega
      | succ i =>
        have h1 := hrow i b (Nat.lt_of_succ_lt_succ hi) hb
        have e2 : (i + 1) * L = i * L + L := Nat.succ_mul i L
        have e3 : (i + 1) * S = i * S + S := Nat.succ_mul i S
        have a1 : P + (i + 1) * S + b = P + S + i * S + b := by omega
        have a2 : Q + (i + 1) * L + b = Q + L + i * L + b := by omega
        rw [a1, a2]
        exact h1
    · intro k hk
      have h1 := hout k (by omega)
      rw [h1, memcpy_nat_get dst src P Q S hPS hQS]
      have : ¬ (P ≤ k ∧ k < P + S) := by omega
      rw [if_neg this]

theorem fresh_length (env : env_t) (n : Nat) : (fresh env (n : Int)).length = n := by
  simp [fresh]

theorem surface_clone_region_core (env : env_t) (s : surface_t) (r : region_t)
    (W H X1 X2 Y1 Y2 : Nat)
    (hw : s.width = W) (hh : s.height = H) (hs : s.stride = 4 * (W : Int))
    (hl : s.pixels.length = H * (4 * W))
    (hx1 : max 0 r.x = (X1 : Int)) (hx2 : min s.width (r.x + r.w) = (X2 : Int))
    (hy1 : max 0 r.y = (Y1 : Int)) (hy2 : min s.height (r.y + r.h) = (Y2 : Int))
    (hX : X1 ≤ X2) (hY : Y1 ≤ Y2)
    (hm : env.malloc_ok = true)
    (ha : env.memalign_ok (((Y2 - Y1) * (4 * (X2 - X1)) : Nat) : Int) = true) :
    ∃ res : List Nat,
      surface_clone env (some s) (some r)
        = clone_finish s ((X2 - X1 : Nat) : Int) ((Y2 - Y1 : Nat) : Int)
            ((4 * (X2 - X1) : Nat) : Int) (((Y2 - Y1) * (4 * (X2 - X1)) : Nat) : Int) res
      ∧ res.length = (Y2 - Y1) * (4 * (X2 - X1))
      ∧ ∀ j b, j < Y2 - Y1 → b < 4 * (X2 - X1) →
          res[j * (4 * (X2 - X1)) + b]? = s.pixels[(Y1 * (4 * W) + 4 * X1) + j * (4 * W) + b]? := by
  have hXW : X2 ≤ W := by omega
  have hYH : Y2 ≤ H := by omega
  have ewidth : (X2 : Int) - X1 = ((X2 - X1 : Nat) : Int) := by omega
  have eheight : (Y2 : Int) - Y1 = ((Y2 - Y1 : Nat) : Int) := by omega
  have estride : shl ((X2 - X1 : Nat) : Int) 2 = ((4 * (X2 - X1) : Nat) : Int) := by
    unfold shl; push_cast; ring
  have epix : ((Y2 - Y1 : Nat) : Int) * ((4 * (X2 - X1) : Nat) : Int)
      = (((Y2 - Y1) * (4 * (X2 - X1)) : Nat) : Int) := by push_cast; rfl
  have eq : (Y1 : Int) * ((4 * W : Nat) : Int) + shl (X1 : Int) 2
      = ((Y1 * (4 * W) + 4 * X1 : Nat) : Int) := by
    unfold shl; push_cast; ring
  have el : (4 * (W : Int)) = ((4 * W : Nat) : Int) := by push_cast; rfl
  obtain ⟨res, hres, hlen, hrow, _⟩ :=
    clone_rows_nat s.pixels (4 * (X2 - X1)) (4 * W) (Y2 - Y1)
      (fresh env (((Y2 - Y1) * (4 * (X2 - X1)) : Nat) : Int)) 0 (Y1 * (4 * W) + 4 * X1)
      (by rw [fresh_length]; omega)
      (fun i hi => by
        rw [hl]
        have h1 : (Y1 + i + 1) * (4 * W) ≤ H * (4 * W) :=
          Nat.mul_le_mul_right _ (by omega)
        have h2 : (Y1 + i + 1) * (4 * W) = Y1 * (4 * W) + i * (4 * W) + 4 * W := by ring
        omega)
  refine ⟨res, ?_, by rw [hlen, fresh_length], ?_⟩
  · unfold surface_clone
    simp only [hx1, hx2, hy1, hy2, hs]
    rw [if_pos (by exact_mod_cast hX), if_pos (by exact_mod_cast hY)]
    simp only [ewidth, eheight, estride, epix, hm, ha, eq, el, Int.toNat_ofNat]
    simp only [Nat.cast_zero] at hres
    rw [hres]
    simp
  · intro j b hj hb
    have := hrow j b hj hb
    simpa using this

theorem clone_finish_success (s : surface_t) (w h st pl : Int) (px : List Nat) (c : surface_t)
    (t : List event_t) (hc : clone_finish s w h st pl px = (.ok (some c), t)) :
    c.width = w ∧ c.height = h ∧ c.stride = st ∧ c.pixlen = pl ∧ c.pixels = px
      ∧ c.r = s.r ∧ c.priv = none := by
  unfold clone_finish at hc
  split at hc
  · simp at hc
  · split at hc
    · simp at hc
    · rename_i _ rd hr _ ctx hctx
      simp only [Prod.mk.injEq, Except.ok.injEq, Option.some.injEq] at hc
      obtain ⟨hc, _⟩ := hc
      subst hc
      simp [hr]

theorem surface_clone_region_success (env : env_t) (s : surface_t) (r : region_t)
    (c : surface_t) (t : List event_t)
    (h : surface_clone env (some s) (some r) = (.ok (some c), t)) :
    max 0 r.x ≤ min s.width (r.x + r.w) ∧ max 0 r.y ≤ min s.height (r.y + r.h)
      ∧ env.malloc_ok = true
      ∧ env.memalign_ok ((min s.height (r.y + r.h) - max 0 r.y)
          * shl (min s.width (r.x + r.w) - max 0 r.x) 2) = true := by
  unfold surface_clone at h
  simp only at h
  by_cases hx : max 0 r.x ≤ min s.width (r.x + r.w)
  · by_cases hy : max 0 r.y ≤ min s.height (r.y + r.h)
    · rw [if_pos hx, if_pos hy] at h
      by_cases hm : env.malloc_ok = true
      · by_cases ha : env.memalign_ok ((min s.height (r.y + r.h) - max 0 r.y)
            * shl (min s.width (r.x + r.w) - max 0 r.x) 2) = true
        · exact ⟨hx, hy, hm, ha⟩
        · simp [hm, ha] at h
      · simp [hm] at h
    · rw [if_pos hx, if_neg hy] at h
      simp at h
  · rw [if_neg hx] at h
    simp at h

theorem surface_clone_region_wf (env : env_t) (s : surface_t) (r : region_t) (hwf : s.wf)
    (hx : max 0 r.x ≤ min s.width (r.x + r.w)) (hy : max 0 r.y ≤ min s.height (r.y + r.h))
    (hm : env.malloc_ok = true)
    (ha : env.memalign_ok ((min s.height (r.y + r.h) - max 0 r.y)
          * shl (min s.width (r.x + r.w) - max 0 r.x) 2) = true) :
    ∃ (W H X1 X2 Y1 Y2 : Nat) (res : List Nat),
      s.width = W ∧ s.height = H ∧ s.stride = 4 * (W : Int) ∧ s.pixels.length = H * (4 * W)
      ∧ max 0 r.x = (X1 : Int) ∧ min s.width (r.x + r.w) = (X2 : Int)
      ∧ max 0 r.y = (Y1 : Int) ∧ min s.height (r.y + r.h) = (Y2 : Int)
      ∧ X1 ≤ X2 ∧ X2 ≤ W ∧ Y1 ≤ Y2 ∧ Y2 ≤ H
      ∧ surface_clone env (some s) (some r)
        = clone_finish s ((X2 - X1 : Nat) : Int) ((Y2 - Y1 : Nat) : Int)
            ((4 * (X2 - X1) : Nat) : Int) (((Y2 - Y1) * (4 * (X2 - X1)) : Nat) : Int) res
      ∧ res.length = (Y2 - Y1) * (4 * (X2 - X1))
      ∧ ∀ j b, j < Y2 - Y1 → b < 4 * (X2 - X1) →
          res[j * (4 * (X2 - X1)) + b]? = s.pixels[(Y1 * (4 * W) + 4 * X1) + j * (4 * W) + b]? := by
  obtain ⟨hw0, hh0, hs, hp, hl⟩ := hwf
  obtain ⟨W, hW⟩ := Int.eq_ofNat_of_zero_le hw0
  obtain ⟨H, hH⟩ := Int.eq_ofNat_of_zero_le hh0
  obtain ⟨X1, hX1⟩ := Int.eq_ofNat_of_zero_le (le_max_left 0 r.x)
  obtain ⟨Y1, hY1⟩ := Int.eq_ofNat_of_zero_le (le_max_left 0 r.y)
  obtain ⟨X2, hX2⟩ := Int.eq_ofNat_of_zero_le (le_trans (le_max_left 0 r.x) hx)
  obtain ⟨Y2, hY2⟩ := Int.eq_ofNat_of_zero_le (le_trans (le_max_left 0 r.y) hy)
  have hXle : X1 ≤ X2 := by rw [hX1, hX2] at hx; exact_mod_cast hx
  have hYle : Y1 ≤ Y2 := by rw [hY1, hY2] at hy; exact_mod_cast hy
  have hs4 : s.stride = 4 * (W : Int) := by rw [hs, hW]
  have hlen : s.pixels.length = H * (4 * W) := by
    have : (s.pixels.length : Int) = (H : Int) * (4 * (W : Int)) := by rw [hl, hp, hH, hs4]
    exact_mod_cast this
  have ha2 : env.memalign_ok (((Y2 - Y1) * (4 * (X2 - X1)) : Nat) : Int) = true := by
    rw [hX1, hX2, hY1, hY2] at ha
    have e : ((Y2 : Int) - Y1) * shl ((X2 : Int) - X1) 2
        = (((Y2 - Y1) * (4 * (X2 - X1)) : Nat) : Int) := by
      unfold shl
      push_cast [Nat.cast_sub hXle, Nat.cast_sub hYle]
      ring
    rw [e] at ha
    exact ha
  obtain ⟨res, h1, h2, h3⟩ := surface_clone_region_core env s r W H X1 X2 Y1 Y2 hW hH hs4 hlen
    hX1 hX2 hY1 hY2 hXle hYle hm ha2
  exact ⟨W, H, X1, X2, Y1, Y2, res, hW, hH, hs4, hlen, hX1, hX2, hY1, hY2, hXle, by omega,
    hYle, by omega, h1, h2, h3⟩

theorem load32_nat (mem : List Nat) (k : Nat) (h : 4 * k + 4 ≤ mem.length) :
    load32 mem (k : Int) = .ok (mem.getD (4 * k) 0 + 256 * mem.getD (4 * k + 1) 0
      + 65536 * mem.getD (4 * k + 2) 0 + 16777216 * mem.getD (4 * k + 3) 0) := by
  unfold load32
  have c : (0 : Int) ≤ (k : Int) ∧ 4 * (k : Int) + 4 ≤ (mem.length : Int) := by
    constructor <;> omega
  have e : (4 * (k : Int)).toNat = 4 * k := by omega
  rw [if_pos c]
  simp only [e]

theorem load32_congr (m1 m2 : List Nat) (k1 k2 : Nat) (h1 : 4 * k1 + 4 ≤ m1.length)
    (h2 : 4 * k2 + 4 ≤ m2.length) (hb : ∀ b, b < 4 → m1[4 * k1 + b]? = m2[4 * k2 + b]?) :
    load32 m1 (k1 : Int) = load32 m2 (k2 : Int) := by
  rw [load32_nat m1 k1 h1, load32_nat m2 k2 h2]
  simp only [List.getD_eq_getElem?_getD]
  have b0 := hb 0 (by omega)
  have b1 := hb 1 (by omega)
  have b2 := hb 2 (by omega)
  have b3 := hb 3 (by omega)
  simp only [Nat.add_zero] at b0
  rw [b0, b1, b2, b3]

theorem shr_two_four_mul (n : Nat) : shr ((4 * n : Nat) : Int) 2 = (n : Int) := by
  unfold shr
  push_cast
  omega

/-- C10: when `surface_clone(s, r)` succeeds on a surface that satisfies the
invariant of the data model, the clone has width `x2 - x1` and height
`y2 - y1` for the clamped rectangle `x1 = max(0, r.x)`, `y1 = max(0, r.y)`,
`x2 = min(width, r.x + r.w)`, `y2 = min(height, r.y + r.h)`, and its pixel
`(i, j)` is the pixel `(x1 + i, y1 + j)` of the source, which lies inside the
source buffer.  The source is an argument that the function only reads. -/
theorem surface_clone_region_pixels (env : env_t) (s : surface_t) (r : region_t)
    (c : surface_t) (t : List event_t) (hwf : s.wf)
    (hc : surface_clone env (some s) (some r) = (.ok (some c), t)) :
    c.width = min s.width (r.x + r.w) - max 0 r.x
    ∧ c.height = min s.height (r.y + r.h) - max 0 r.y
    ∧ ∀ i j : Int, 0 ≤ i → i < c.width → 0 ≤ j → j < c.height →
        pixel_word c i j = pixel_word s (max 0 r.x + i) (max 0 r.y + j)
        ∧ ∃ v, pixel_word s (max 0 r.x + i) (max 0 r.y + j) = .ok v := by
  obtain ⟨hx, hy, hm, ha⟩ := surface_clone_region_success env s r c t hc
  obtain ⟨W, H, X1, X2, Y1, Y2, res, hW, hH, hs, hlen, hX1, hX2, hY1, hY2, hXle, hXW, hYle, hYH,
    hclone, hreslen, hrow⟩ := surface_clone_region_wf env s r hwf hx hy hm ha
  rw [hclone] at hc
  obtain ⟨cw, ch, cs, _, cp, _, _⟩ := clone_finish_success _ _ _ _ _ _ _ _ hc
  refine ⟨by rw [cw, hX1, hX2]; omega, by rw [ch, hY1, hY2]; omega, ?_⟩
  intro i j hi0 hi hj0 hj
  obtain ⟨I, rfl⟩ := Int.eq_ofNat_of_zero_le hi0
  obtain ⟨J, rfl⟩ := Int.eq_ofNat_of_zero_le hj0
  have hI : I < X2 - X1 := by rw [cw] at hi; exact_mod_cast hi
  have hJ : J < Y2 - Y1 := by rw [ch] at hj; exact_mod_cast hj
  unfold pixel_word
  rw [cs, cp, hs, hX1, hY1]
  have e4 : (4 * (W : Int)) = ((4 * W : Nat) : Int) := by push_cast; rfl
  rw [e4, shr_two_four_mul, shr_two_four_mul]
  have ei : (J : Int) * ((X2 - X1 : Nat) : Int) + (I : Int)
      = ((J * (X2 - X1) + I : Nat) : Int) := by push_cast; rfl
  have es : ((Y1 : Int) + (J : Int)) * (W : Int) + ((X1 : Int) + (I : Int))
      = (((Y1 + J) * W + (X1 + I) : Nat) : Int) := by push_cast; rfl
  rw [ei, es]
  have m1 : J * (X2 - X1) + (X2 - X1) ≤ (Y2 - Y1) * (X2 - X1) := by
    have := Nat.mul_le_mul_right (X2 - X1) (Nat.succ_le_of_lt hJ)
    rw [Nat.succ_mul] at this
    exact this
  have m2 : (Y1 + J) * W + W ≤ H * W := by
    have := Nat.mul_le_mul_right W (show Y1 + J + 1 ≤ H by omega)
    rw [Nat.succ_mul] at this
    exact this
  have a1 : (Y2 - Y1) * (4 * (X2 - X1)) = 4 * ((Y2 - Y1) * (X2 - X1)) := by ring
  have a2 : H * (4 * W) = 4 * (H * W) := by ring
  have b1 : 4 * (J * (X2 - X1) + I) + 4 ≤ res.length := by rw [hreslen, a1]; omega
  have b2 : 4 * ((Y1 + J) * W + (X1 + I)) + 4 ≤ s.pixels.length := by rw [hlen, a2]; omega
  refine ⟨load32_congr _ _ _ _ b1 b2 ?_, _, load32_nat _ _ b2⟩
  intro b hb
  have h := hrow J (4 * I + b) hJ (by omega)
  have a3 : J * (4 * (X2 - X1)) + (4 * I + b) = 4 * (J * (X2 - X1) + I) + b := by ring
  have a4 : Y1 * (4 * W) + 4 * X1 + J * (4 * W) + (4 * I + b)
      = 4 * ((Y1 + J) * W + (X1 + I)) + b := by ring
  rw [a3, a4] at h
  exact h

theorem surface_clone_covering (env : env_t) (s : surface_t) (r : region_t) (hwf : s.wf)
    (hx : r.x ≤ 0) (hy : r.y ≤ 0) (hx2 : s.width ≤ r.x + r.w) (hy2 : s.height ≤ r.y + r.h) :
    surface_clone env (some s) (some r) = surface_clone env (some s) none := by
  have hwf0 := hwf
  obtain ⟨hw0, hh0, hs, hp, hl⟩ := hwf
  have ex1 : max 0 r.x = 0 := max_eq_left hx
  have ey1 : max 0 r.y = 0 := max_eq_left hy
  have ex2 : min s.width (r.x + r.w) = s.width := min_eq_left hx2
  have ey2 : min s.height (r.y + r.h) = s.height := min_eq_left hy2
  have epix : (min s.height (r.y + r.h) - max 0 r.y)
      * shl (min s.width (r.x + r.w) - max 0 r.x) 2 = s.pixlen := by
    rw [ex1, ey1, ex2, ey2, hp, hs]; unfold shl; ring
  by_cases hm : env.malloc_ok = true
  · by_cases ha : env.memalign_ok s.pixlen = true
    · obtain ⟨W, H, X1, X2, Y1, Y2, res, hW, hH, hs4, hlen, hX1, hX2, hY1, hY2, hXle, hXW, hYle,
        hYH, hclone, hreslen, hrow⟩ :=
        surface_clone_region_wf env s r hwf0 (by rw [ex1, ex2]; exact hw0)
          (by rw [ey1, ey2]; exact hh0) hm (by rw [epix]; exact ha)
      have hX1z : X1 = 0 := by omega
      have hY1z : Y1 = 0 := by omega
      have hX2W : X2 = W := by omega
      have hY2H : Y2 = H := by omega
      subst hX1z hY1z hX2W hY2H
      simp only [Nat.sub_zero, Nat.zero_mul, Nat.mul_zero, Nat.zero_add] at hclone hreslen hrow
      have hres : res = s.pixels := by
        apply List.ext_getElem?
        intro k
        by_cases hk : k < Y2 * (4 * X2)
        · have hpos : 0 < 4 * X2 := by
            rcases Nat.eq_zero_or_pos (4 * X2) with h0 | h0
            · rw [h0] at hk; simp at hk
            · exact h0
          have hj : k / (4 * X2) < Y2 := Nat.div_lt_of_lt_mul (by rw [Nat.mul_comm]; exact hk)
          have h := hrow (k / (4 * X2)) (k % (4 * X2)) hj (Nat.mod_lt _ hpos)
          have e : k / (4 * X2) * (4 * X2) + k % (4 * X2) = k := Nat.div_add_mod' k (4 * X2)
          rw [e] at h
          exact h
        · rw [List.getElem?_eq_none (by omega), List.getElem?_eq_none (by omega)]
      have hcopy : memcpy (fresh env s.pixlen) 0 s.pixels 0 s.pixlen = .ok s.pixels := by
        have e1 : s.pixlen = ((Y2 * (4 * X2) : Nat) : Int) := by
          rw [hp, hH, hs4]; push_cast; rfl
        rw [e1]
        have h := memcpy_nat (fresh env ((Y2 * (4 * X2) : Nat) : Int)) s.pixels 0 0
          (Y2 * (4 * X2)) (by rw [fresh_length]; omega) (by omega)
        simp only [Nat.cast_zero] at h
        rw [h]
        have hf := fresh_length env (Y2 * (4 * X2))
        rw [List.take_zero, List.drop_zero, Nat.zero_add,
          List.take_of_length_le (le_of_eq hlen), List.drop_of_length_le (le_of_eq hf),
          List.nil_append, List.append_nil]
      rw [hclone, hres]
      unfold surface_clone
      simp only [hm, ha, hcopy]
      have e2 : s.pixlen = ((Y2 * (4 * X2) : Nat) : Int) := by
        rw [hp, hH, hs4]; push_cast; rfl
      have e3 : s.stride = ((4 * X2 : Nat) : Int) := by rw [hs4]; push_cast; rfl
      rw [e2, e3, hW, hH]
      simp
    · unfold surface_clone
      simp only [ex1, ex2, ey1, ey2]
      rw [ex1, ex2, ey1, ey2] at epix
      rw [if_pos hw0, if_pos hh0]
      simp only [epix, hm, ha]
      simp
  · unfold surface_clone
    simp only [ex1, ex2, ey1, ey2]
    rw [if_pos hw0, if_pos hh0]
    simp [hm]

theorem surface_clone_inverted (env : env_t) (s : surface_t) (r : region_t)
    (h : min s.width (r.x + r.w) < max 0 r.x ∨ min s.height (r.y + r.h) < max 0 r.y) :
    surface_clone env (some s) (some r) = (.ok none, []) := by
  unfold surface_clone
  simp only
  by_cases hx : max 0 r.x ≤ min s.width (r.x + r.w)
  · have hy : ¬ (max 0 r.y ≤ min s.height (r.y + r.h)) := by
      rcases h with h | h
      · exact absurd hx (not_le.mpr h)
      · exact not_le.mpr h
    rw [if_pos hx, if_neg hy]
  · rw [if_neg hx]

theorem clone_finish_create (s : surface_t) (w h st pl : Int) (px : List Nat) (rd : render_t)
    (hr : s.r = some rd) (hcreate : ∀ w h st pl px, rd.create w h st pl px ≠ none) :
    ∃ c t, clone_finish s w h st pl px = (.ok (some c), t) ∧ c.width = w ∧ c.height = h := by
  unfold clone_finish
  rw [hr]
  simp only
  cases hc : rd.create w h st pl px with
  | none => exact absurd hc (hcreate w h st pl px)
  | some ctx => exact ⟨_, _, rfl, rfl, rfl⟩

/-- C3 (as stated): the region `(2, 0, 5, 5)` only touches the right edge of a
2 x 2 surface, so its intersection with the surface is empty, and
`surface_clone` returns a Surface of width 0 and height 2 for it. -/
theorem surface_clone_edge_region_zero_width :
    ∃ c, (surface_clone demo_env (some (demo_surface demo_ramp)) (some ⟨2, 0, 5, 5⟩)).1
        = .ok (some c)
      ∧ c.width = 0 ∧ c.height = 2 ∧ c.pixels = [] :=
  ⟨_, rfl, rfl, rfl, rfl⟩

/-- C3 (amended): `surface_clone(s, r)` returns NULL, without allocating, for
every region whose clamped rectangle is inverted (`x1 > x2` or `y1 > y2`), as
for the region `(w+1, 0, 5, 5)`.  A region whose clamped rectangle is not
inverted is not rejected, even when the rectangle is empty: if the allocations
and the backend's create succeed, the result is a Surface of width `x2 - x1`
and height `y2 - y1`. -/
theorem surface_clone_empty_region (env : env_t) (s : surface_t) (r : region_t) (hwf : s.wf) :
    ((min s.width (r.x + r.w) < max 0 r.x ∨ min s.height (r.y + r.h) < max 0 r.y) →
        surface_clone env (some s) (some r) = (.ok none, []))
    ∧ surface_clone env (some s) (some ⟨s.width + 1, 0, 5, 5⟩) = (.ok none, [])
    ∧ (max 0 r.x ≤ min s.width (r.x + r.w) → max 0 r.y ≤ min s.height (r.y + r.h) →
        env.malloc_ok = true →
        env.memalign_ok ((min s.height (r.y + r.h) - max 0 r.y)
          * shl (min s.width (r.x + r.w) - max 0 r.x) 2) = true →
        ∀ rd, s.r = some rd → (∀ w h st pl px, rd.create w h st pl px ≠ none) →
        ∃ c t, surface_clone env (some s) (some r) = (.ok (some c), t)
          ∧ c.width = min s.width (r.x + r.w) - max 0 r.x
          ∧ c.height = min s.height (r.y + r.h) - max 0 r.y) := by
  refine ⟨surface_clone_inverted env s r, ?_, ?_⟩
  · apply surface_clone_inverted
    left
    show min s.width (s.width + 1 + 5) < max 0 (s.width + 1)
    have := hwf.1
    omega
  · intro hx hy hm ha rd hr hcreate
    obtain ⟨W, H, X1, X2, Y1, Y2, res, hW, hH, hs, hlen, hX1, hX2, hY1, hY2, hXle, hXW, hYle,
      hYH, hclone, hreslen, hrow⟩ := surface_clone_region_wf env s r hwf hx hy hm ha
    obtain ⟨c, t, h1, h2, h3⟩ := clone_finish_create s ((X2 - X1 : Nat) : Int)
      ((Y2 - Y1 : Nat) : Int) ((4 * (X2 - X1) : Nat) : Int)
      (((Y2 - Y1) * (4 * (X2 - X1)) : Nat) : Int) res rd hr hcreate
    refine ⟨c, t, by rw [hclone]; exact h1, by rw [h2, hX1, hX2]; omega,
      by rw [h3, hY1, hY2]; omega⟩

theorem demo_surface_wf (pixels : List Nat) (h : pixels.length = 16) :
    (demo_surface pixels).wf := by
  simp [surface_t.wf, demo_surface, h]

theorem surface_clone_empty_region_witness :
    (demo_surface demo_ramp).wf
    ∧ surface_clone demo_env (some (demo_surface demo_ramp)) (some ⟨3, 0, 5, 5⟩)
        = (.ok none, []) :=
  ⟨demo_surface_wf demo_ramp rfl,
    (surface_clone_empty_region demo_env (demo_surface demo_ramp) ⟨3, 0, 5, 5⟩
      (demo_surface_wf demo_ramp rfl)).1 (Or.inl (by decide))⟩

theorem memcpy_whole (env : env_t) (s : surface_t) (hwf : s.wf) :
    memcpy (fresh env s.pixlen) 0 s.pixels 0 s.pixlen = .ok s.pixels := by
  obtain ⟨hw0, hh0, hs, hp, hl⟩ := hwf
  obtain ⟨n, hn⟩ : ∃ n : Nat, s.pixlen = (n : Int) := ⟨s.pixels.length, hl.symm⟩
  have hlen : s.pixels.length = n := by rw [hn] at hl; exact_mod_cast hl
  rw [hn]
  have h := memcpy_nat (fresh env (n : Int)) s.pixels 0 0 n
    (by rw [fresh_length]; omega) (by omega)
  simp only [Nat.cast_zero] at h
  rw [h]
  have hf := fresh_length env n
  rw [List.take_zero, List.drop_zero, Nat.zero_add,
    List.take_of_length_le (le_of_eq hlen), List.drop_of_length_le (le_of_eq hf),
    List.nil_append, List.append_nil]

theorem surface_clone_none_success (env : env_t) (s c : surface_t) (t : List event_t)
    (hwf : s.wf) (h : surface_clone env (some s) none = (.ok (some c), t)) :
    c.width = s.width ∧ c.height = s.height ∧ c.stride = s.stride ∧ c.pixlen = s.pixlen
      ∧ c.pixels = s.pixels := by
  unfold surface_clone at h
  simp only [memcpy_whole env s hwf] at h
  by_cases hm : env.malloc_ok = true
  · by_cases ha : env.memalign_ok s.pixlen = true
    · simp only [hm, ha] at h
      obtain ⟨h1, h2, h3, h4, h5, _⟩ := clone_finish_success _ _ _ _ _ _ _ _ h
      exact ⟨h1, h2, h3, h4, h5⟩
    · simp [hm, ha] at h
  · simp [hm] at h

/-- C9: on a surface that satisfies the invariant of the data model, cloning
with a region that contains `[0,w) x [0,h)`, such as `(-5, -5, w+10, h+10)`,
has the same outcome as cloning without a region (same failure or success,
same calls, same Surface), and on success the clone has the width, height,
stride, pixlen and pixel bytes of the source. -/
theorem surface_clone_covering_region (env : env_t) (s : surface_t) (r : region_t)
    (hwf : s.wf) (hx : r.x ≤ 0) (hy : r.y ≤ 0) (hx2 : s.width ≤ r.x + r.w)
    (hy2 : s.height ≤ r.y + r.h) :
    surface_clone env (some s) (some r) = surface_clone env (some s) none
    ∧ surface_clone env (some s) (some ⟨-5, -5, s.width + 10, s.height + 10⟩)
        = surface_clone env (some s) none
    ∧ ∀ c t, surface_clone env (some s) (some r) = (.ok (some c), t) →
        c.width = s.width ∧ c.height = s.height ∧ c.stride = s.stride
          ∧ c.pixlen = s.pixlen ∧ c.pixels = s.pixels := by
  have h1 := surface_clone_covering env s r hwf hx hy hx2 hy2
  refine ⟨h1, ?_, ?_⟩
  · apply surface_clone_covering env s _ hwf
    · show (-5 : Int) ≤ 0
      decide
    · show (-5 : Int) ≤ 0
      decide
    · show s.width ≤ -5 + (s.width + 10)
      omega
    · show s.height ≤ -5 + (s.height + 10)
      omega
  · intro c t hc
    rw [h1] at hc
    exact surface_clone_none_success env s c t hwf hc

theorem surface_clone_covering_region_witness :
    (demo_surface demo_ramp).wf
    ∧ surface_clone demo_env (some (demo_surface demo_ramp)) (some ⟨-1, -2, 4, 5⟩)
        = surface_clone demo_env (some (demo_surface demo_ramp)) none :=
  ⟨demo_surface_wf demo_ramp rfl,
    (surface_clone_covering_region demo_env (demo_surface demo_ramp) ⟨-1, -2, 4, 5⟩
      (demo_surface_wf demo_ramp rfl) (by decide) (by decide) (by decide) (by decide)).1⟩

theorem surface_clone_region_pixels_witness :
    (demo_surface demo_ramp).wf
    ∧ surface_clone demo_env (some (demo_surface demo_ramp)) (some ⟨1, 1, 5, 5⟩)
        = (.ok (some demo_clone), [.malloc, .memalign 4, .create 7])
    ∧ demo_clone.width = min (demo_surface demo_ramp).width (1 + 5) - max 0 1
    ∧ pixel_word demo_clone 0 0 = pixel_word (demo_surface demo_ramp) (max 0 1 + 0) (max 0 1 + 0) :=
  have h := surface_clone_region_pixels demo_env (demo_surface demo_ramp) ⟨1, 1, 5, 5⟩
    demo_clone [.malloc, .memalign 4, .create 7] (demo_surface_wf demo_ramp rfl) rfl
  ⟨demo_surface_wf demo_ramp rfl, rfl, h.1,
    (h.2.2 0 0 (by decide) (by decide) (by decide) (by decide)).1⟩

/-! ## Allocation and release: calls to the backend -/

theorem fresh_length_int (env : env_t) (n : Int) (hn : 0 ≤ n) :
    ((fresh env n).length : Int) = n := by
  simp [fresh, Int.toNat_of_nonneg hn]

theorem memset_fresh (env : env_t) (n : Int) (hn : 0 ≤ n) (c : Nat) :
    memset (fresh env n) c n = .ok (List.replicate n.toNat c) := by
  have hlen := fresh_length_int env n hn
  have hl : (fresh env n).length = n.toNat := by omega
  unfold memset
  rw [if_pos ⟨hn, le_of_eq hlen.symm⟩, List.drop_of_length_le (le_of_eq hl), List.append_nil]

/-- C20: for every `width < 0` or `height < 0`, whatever the payload, the heap
and the registry, `surface_alloc` returns NULL and makes no call at all: no
allocation, no backend create, no destroy.  The spec's two calls,
`surface_alloc(-1, 10, _)` and `surface_alloc(10, -1, _)`, are instances. -/
theorem surface_alloc_negative (env : env_t) (render_list : List render_t)
    (width height : Int) (priv : Option Nat) (h : width < 0 ∨ height < 0) :
    surface_alloc env render_list width height priv = (.ok none, [])
    ∧ surface_alloc env render_list (-1) 10 priv = (.ok none, [])
    ∧ surface_alloc env render_list 10 (-1) priv = (.ok none, []) := by
  refine ⟨?_, ?_, ?_⟩
  · unfold surface_alloc
    rw [if_pos h]
  · unfold surface_alloc
    rw [if_pos (Or.inl (by decide))]
  · unfold surface_alloc
    rw [if_pos (Or.inr (by decide))]

theorem surface_alloc_negative_witness :
    ((-3 : Int) < 0 ∨ (4 : Int) < 0)
    ∧ surface_alloc demo_env [demo_render] (-3) 4 (some 9) = (.ok none, []) :=
  ⟨Or.inl (by decide),
    (surface_alloc_negative demo_env [demo_render] (-3) 4 (some 9) (Or.inl (by decide))).1⟩

/-- C19: for `width, height >= 0`, a heap on which both allocations succeed and
an active backend `rd` whose create returns the context `ctx` for the new
surface, `surface_alloc` makes exactly one backend call, the create of `rd`,
and returns a Surface `s`; `surface_free(s)` then makes exactly one backend
call, the destroy of `rd` with the context `ctx` that create returned, before
the buffer and the record are released.  `surface_free(NULL)` makes no call. -/
theorem surface_alloc_free_calls (env : env_t) (rd : render_t) (rest : List render_t)
    (width height : Int) (priv : Option Nat) (ctx : Nat) (hw : 0 ≤ width) (hh : 0 ≤ height)
    (hm : env.malloc_ok = true) (ha : env.memalign_ok (height * shl width 2) = true)
    (hcreate : rd.create width height (shl width 2) (height * shl width 2)
      (List.replicate (height * shl width 2).toNat 0) = some ctx) :
    (∃ s,
      surface_alloc env (rd :: rest) width height priv
          = (.ok (some s), [.malloc, .memalign (height * shl width 2), .create rd.addr])
      ∧ s.pctx = some ctx
      ∧ surface_free (some s) = [.destroy rd.addr (some ctx), .free_pixels, .free_surface]
      ∧ ((surface_alloc env (rd :: rest) width height priv).2 ++ surface_free (some s)).count
          (.create rd.addr) = 1
      ∧ ((surface_alloc env (rd :: rest) width height priv).2 ++ surface_free (some s)).count
          (.destroy rd.addr (some ctx)) = 1
      ∧ ∀ e ∈ (surface_alloc env (rd :: rest) width height priv).2 ++ surface_free (some s),
          (∀ a, e = .create a → a = rd.addr)
          ∧ (∀ a p, e = .destroy a p → a = rd.addr ∧ p = some ctx))
    ∧ surface_free none = [] := by
  refine ⟨?_, rfl⟩
  have hp : 0 ≤ height * shl width 2 := by
    unfold shl
    positivity
  have c1 : ¬ (width < 0 ∨ height < 0) := by omega
  have halloc : surface_alloc env (rd :: rest) width height priv
      = (.ok (some { width := width, height := height, stride := shl width 2,
                     pixlen := height * shl width 2,
                     pixels := List.replicate (height * shl width 2).toNat 0,
                     r := some rd, pctx := some ctx, priv := priv }),
         [.malloc, .memalign (height * shl width 2), .create rd.addr]) := by
    unfold surface_alloc
    simp only [if_neg c1, hm, ha, memset_fresh env _ hp, search_render, List.head?_cons,
      hcreate]
    simp
  refine ⟨_, halloc, rfl, rfl, ?_, ?_, ?_⟩
  · rw [halloc]
    simp [surface_free, List.count_cons]
  · rw [halloc]
    simp [surface_free, List.count_cons]
  · rw [halloc]
    intro e he
    simp only [surface_free, List.cons_append, List.nil_append, List.mem_cons,
      List.mem_singleton, List.not_mem_nil, or_false] at he
    rcases he with rfl | rfl | rfl | rfl | rfl | rfl <;>
      exact ⟨fun a h => by cases h <;> rfl, fun a p h => by cases h <;> exact ⟨rfl, rfl⟩⟩

theorem surface_alloc_free_calls_witness :
    (0 : Int) ≤ 2 ∧ (0 : Int) ≤ 1
    ∧ demo_env.malloc_ok = true ∧ demo_env.memalign_ok (1 * shl 2 2) = true
    ∧ demo_render.create 2 1 (shl 2 2) (1 * shl 2 2)
        (List.replicate ((1 : Int) * shl 2 2).toNat 0) = some 1
    ∧ ∃ s,
        surface_alloc demo_env [demo_render] 2 1 none
          = (.ok (some s), [.malloc, .memalign (1 * shl 2 2), .create demo_render.addr])
        ∧ surface_free (some s)
          = [.destroy demo_render.addr (some 1), .free_pixels, .free_surface] :=
  have h := (surface_alloc_free_calls demo_env demo_render [] 2 1 none 1 (by decide)
    (by decide) rfl rfl rfl).1
  ⟨by decide, by decide, rfl, rfl, rfl,
    match h with
    | ⟨s, h1, _, h3, _⟩ => ⟨s, h1, h3⟩⟩

/-! ## The registry -/

/-- C17: for every registry and every backend `b` with a name,
`register_render(b)` returns TRUE and puts `b` in front of the registry, so
that `search_render()` returns `b` afterwards and the backends registered
before follow `b` in their previous order; on the empty registry
`search_render()` returns NULL. -/
theorem register_render_head (render_list : List render_t) (b : render_t)
    (hname : b.name ≠ none) :
    register_render render_list (some b) = (true, b :: render_list)
    ∧ search_render (register_render render_list (some b)).2 = some b
    ∧ (register_render render_list (some b)).2.tail = render_list
    ∧ search_render [] = none := by
  have h : register_render render_list (some b) = (true, b :: render_list) := by
    unfold register_render
    simp only [if_neg hname, list_add]
  refine ⟨h, ?_, ?_, rfl⟩
  · rw [h]; rfl
  · rw [h]; rfl

theorem register_render_head_witness :
    demo_render.name ≠ none
    ∧ search_render (register_render [demo_render_2] (some demo_render)).2 = some demo_render :=
  ⟨by decide, (register_render_head [demo_render_2] demo_render (by decide)).2.1⟩

theorem list_del_first (l1 l2 : List render_t) (b : render_t)
    (hfirst : ∀ x ∈ l1, x.addr ≠ b.addr) : list_del b (l1 ++ b :: l2) = l1 ++ l2 := by
  unfold list_del
  induction l1 with
  | nil => simp [List.eraseP_cons]
  | cons x xs ih =>
    have hx : x.addr ≠ b.addr := hfirst x (List.mem_cons_self _ _)
    have hxs : ∀ y ∈ xs, y.addr ≠ b.addr := fun y hy => hfirst y (List.mem_cons_of_mem _ hy)
    simp only [List.cons_append, List.eraseP_cons]
    have : (x.addr == b.addr) = false := by simpa using hx
    rw [this]
    simp only [Bool.false_eq_true, if_false, cond_false]
    rw [ih hxs]

/-- C18: when the registry contains the named backend `b` (and no earlier entry
with its identity), `unregister_render(b)` returns TRUE and removes exactly
`b`, the other backends keeping their order; `register_render(b)` followed by
`unregister_render(b)` gives back the registry and the active backend from
before; `unregister_render` of NULL or of a backend without a name returns
FALSE and leaves the registry as it is. -/
theorem unregister_render_removes (l1 l2 render_list : List render_t) (b : render_t)
    (hname : b.name ≠ none) (hfirst : ∀ x ∈ l1, x.addr ≠ b.addr) :
    unregister_render (l1 ++ b :: l2) (some b) = (true, l1 ++ l2)
    ∧ unregister_render (register_render render_list (some b)).2 (some b)
        = (true, render_list)
    ∧ search_render
        (unregister_render (register_render render_list (some b)).2 (some b)).2
        = search_render render_list
    ∧ unregister_render render_list none = (false, render_list)
    ∧ (∀ b1 : render_t, b1.name = none →
        unregister_render render_list (some b1) = (false, render_list)) := by
  have hreg : register_render render_list (some b) = (true, b :: render_list) := by
    unfold register_render
    simp only [if_neg hname, list_add]
  have hround : unregister_render (b :: render_list) (some b) = (true, render_list) := by
    unfold unregister_render
    simp only [if_neg hname]
    have := list_del_first [] render_list b (fun x hx => absurd hx (List.not_mem_nil x))
    simpa using this
  refine ⟨?_, ?_, ?_, rfl, ?_⟩
  · unfold unregister_render
    simp only [if_neg hname, list_del_first l1 l2 b hfirst]
  · rw [hreg]; exact hround
  · rw [hreg, hround]
  · intro b1 h1
    unfold unregister_render
    simp only [if_pos h1]

theorem unregister_render_removes_witness :
    demo_render.name ≠ none
    ∧ (∀ x ∈ [demo_render_2], x.addr ≠ demo_render.addr)
    ∧ unregister_render ([demo_render_2] ++ demo_render :: []) (some demo_render)
        = (true, [demo_render_2] ++ []) :=
  ⟨by decide, by decide,
    (unregister_render_removes [demo_render_2] [] [] demo_render (by decide) (by decide)).1⟩


theorem argb_eq_add (a r g b : Nat) (hr : r ≤ 255) (hg : g ≤ 255) (hb : b ≤ 255) :
    (a <<< 24) ||| (r <<< 16) ||| (g <<< 8) ||| b
      = a * 16777216 + r * 65536 + g * 256 + b := by
  simp only [Nat.shiftLeft_eq]
  have e1 : a * 2 ^ 24 ||| r * 2 ^ 16 = 2 ^ 16 * (a * 256 + r) := by
    have h := Nat.mul_add_lt_is_or (i := 24) (b := r * 2 ^ 16) (by omega) a
    rw [Nat.mul_comm a (2 ^ 24), ← h]
    omega
  have e2 : 2 ^ 16 * (a * 256 + r) ||| g * 2 ^ 8 = 2 ^ 8 * (a * 65536 + r * 256 + g) := by
    have h := Nat.mul_add_lt_is_or (i := 16) (b := g * 2 ^ 8) (by omega) (a * 256 + r)
    rw [← h]
    omega
  have e3 : 2 ^ 8 * (a * 65536 + r * 256 + g) ||| b
      = a * 16777216 + r * 65536 + g * 256 + b := by
    have h := Nat.mul_add_lt_is_or (i := 8) (b := b) (by omega) (a * 65536 + r * 256 + g)
    rw [← h]
    omega
  rw [e1, e2, e3]

theorem color_get_premult_eq_add (c : color_t) (hr : c.r ≤ 255) (hg : c.g ≤ 255)
    (hb : c.b ≤ 255) (ha : c.a ≤ 255) :
    color_get_premult c
      = c.a * 16777216 + premul c.a c.r * 65536 + premul c.a c.g * 256 + premul c.a c.b := by
  unfold color_get_premult
  exact argb_eq_add _ _ _ _ (premul_lt _ _ ha hr) (premul_lt _ _ ha hg) (premul_lt _ _ ha hb)

theorem splice_get (dst X : List Nat) (P k : Nat) (h : P + X.length ≤ dst.length) :
    (dst.take P ++ X ++ dst.drop (P + X.length))[k]?
      = if P ≤ k ∧ k < P + X.length then X[k - P]? else dst[k]? := by
  by_cases hk1 : k < P
  · have : ¬ (P ≤ k ∧ k < P + X.length) := by omega
    rw [if_neg this, List.append_assoc, List.getElem?_append_left (by simp; omega)]
    rw [List.getElem?_take_of_lt hk1]
  · by_cases hk2 : k < P + X.length
    · rw [if_pos ⟨by omega, hk2⟩, List.append_assoc,
        List.getElem?_append_right (by simp; omega),
        List.getElem?_append_left (by simp; omega)]
      simp only [List.length_take]
      congr 1
      omega
    · have : ¬ (P ≤ k ∧ k < P + X.length) := by omega
      rw [if_neg this, List.getElem?_append_right (by simp; omega)]
      simp only [List.length_append, List.length_take, List.length_drop]
      rw [List.getElem?_drop]
      congr 1
      omega

theorem store32_nat (mem : List Nat) (k : Nat) (v : Nat) (h : 4 * k + 4 ≤ mem.length) :
    store32 mem (k : Int) v = .ok (mem.take (4 * k) ++ bytes32 v ++ mem.drop (4 * k + 4)) := by
  unfold store32
  have c : (0 : Int) ≤ (k : Int) ∧ 4 * (k : Int) + 4 ≤ (mem.length : Int) := by
    constructor <;> omega
  have e : (4 * (k : Int)).toNat = 4 * k := by omega
  rw [if_pos c]
  simp only [e]

theorem store32_nat_length (mem : List Nat) (k : Nat) (v : Nat) (h : 4 * k + 4 ≤ mem.length) :
    (mem.take (4 * k) ++ bytes32 v ++ mem.drop (4 * k + 4)).length = mem.length := by
  simp [bytes32]
  omega

theorem load32_store32 (mem : List Nat) (k j : Nat) (v : Nat) (hv : v < 2 ^ 32)
    (hk : 4 * k + 4 ≤ mem.length) (hj : 4 * j + 4 ≤ mem.length) :
    load32 (mem.take (4 * k) ++ bytes32 v ++ mem.drop (4 * k + 4)) (j : Int)
      = if j = k then .ok v else load32 mem (j : Int) := by
  have hlen := store32_nat_length mem k v hk
  have hg : ∀ i, (mem.take (4 * k) ++ bytes32 v ++ mem.drop (4 * k + 4))[i]?
      = if 4 * k ≤ i ∧ i < 4 * k + 4 then (bytes32 v)[i - 4 * k]? else mem[i]? := by
    intro i
    have := splice_get mem (bytes32 v) (4 * k) i (by simp [bytes32]; omega)
    simpa [bytes32] using this
  rw [load32_nat _ j (by rw [hlen]; exact hj)]
  simp only [List.getD_eq_getElem?_getD, hg]
  by_cases hjk : j = k
  · subst hjk
    rw [if_pos rfl, if_pos ⟨by omega, by omega⟩, if_pos ⟨by omega, by omega⟩,
      if_pos ⟨by omega, by omega⟩, if_pos ⟨by omega, by omega⟩]
    have e0 : 4 * j - 4 * j = 0 := by omega
    have e1 : 4 * j + 1 - 4 * j = 1 := by omega
    have e2 : 4 * j + 2 - 4 * j = 2 := by omega
    have e3 : 4 * j + 3 - 4 * j = 3 := by omega
    rw [e0, e1, e2, e3]
    simp only [bytes32, List.getElem?_cons_zero, List.getElem?_cons_succ, Option.getD_some]
    congr 1
    omega
  · rw [if_neg hjk, if_neg (by omega), if_neg (by omega), if_neg (by omega), if_neg (by omega),
      load32_nat _ j hj]
    simp only [List.getD_eq_getElem?_getD]

theorem color_get_premult_lt (c : color_t) (hr : c.r ≤ 255) (hg : c.g ≤ 255)
    (hb : c.b ≤ 255) (ha : c.a ≤ 255) : color_get_premult c < 2 ^ 32 := by
  unfold color_get_premult
  exact argb_lt _ _ _ _ ha (premul_lt _ _ ha hr) (premul_lt _ _ ha hg) (premul_lt _ _ ha hb)

theorem color_set_premult_alpha (out c : color_t) (hr : c.r ≤ 255) (hg : c.g ≤ 255)
    (hb : c.b ≤ 255) (ha : c.a ≤ 255) :
    (color_set_premult out (color_get_premult c)).a = c.a
    ∧ (c.a = 0 → color_set_premult out (color_get_premult c) = ⟨0, 0, 0, 0⟩) := by
  have hsum := color_get_premult_eq_add c hr hg hb ha
  have h1 := premul_lt _ _ ha hr
  have h2 := premul_lt _ _ ha hg
  have h3 := premul_lt _ _ ha hb
  have halpha : (color_get_premult c >>> 24) % 256 = c.a := by
    rw [hsum, Nat.shiftRight_eq_div_pow]
    omega
  unfold color_set_premult
  simp only [halpha]
  constructor
  · by_cases h0 : c.a = 0
    · simp [h0]
    · simp [h0]
  · intro h0
    simp [h0]

theorem pixel_index_wf (s : surface_t) (hwf : s.wf) (x y : Int) (hx0 : 0 ≤ x)
    (hx : x < s.width) (hy0 : 0 ≤ y) (hy : y < s.height) :
    ∃ K : Nat, y * shr s.stride 2 + x = (K : Int) ∧ 4 * K + 4 ≤ s.pixels.length
      ∧ (K : Int) = y * s.width + x := by
  obtain ⟨hw0, hh0, hs, hp, hl⟩ := hwf
  obtain ⟨W, hW⟩ := Int.eq_ofNat_of_zero_le hw0
  obtain ⟨H, hH⟩ := Int.eq_ofNat_of_zero_le hh0
  obtain ⟨X, rfl⟩ := Int.eq_ofNat_of_zero_le hx0
  obtain ⟨Y, rfl⟩ := Int.eq_ofNat_of_zero_le hy0
  have hXW : X < W := by rw [hW] at hx; exact_mod_cast hx
  have hYH : Y < H := by rw [hH] at hy; exact_mod_cast hy
  have hlen : s.pixels.length = H * (4 * W) := by
    have : (s.pixels.length : Int) = (H : Int) * (4 * (W : Int)) := by rw [hl, hp, hH, hs, hW]
    exact_mod_cast this
  have hshr : shr s.stride 2 = (W : Int) := by
    rw [hs, hW]
    have e4 : (4 * (W : Int)) = ((4 * W : Nat) : Int) := by push_cast; rfl
    rw [e4, shr_two_four_mul]
  refine ⟨Y * W + X, by rw [hshr]; push_cast; rfl, ?_, by rw [hW]; push_cast; rfl⟩
  have m : Y * W + W ≤ H * W := by
    have := Nat.mul_le_mul_right W (Nat.succ_le_of_lt hYH)
    rw [Nat.succ_mul] at this
    exact this
  have a2 : H * (4 * W) = 4 * (H * W) := by ring
  rw [hlen, a2]
  omega

/-- C14: on a surface that satisfies the invariant of the data model, at an
in-bounds coordinate and for a colour with channels in 0..255,
`surface_set_pixel` stores the premultiplied word of the colour and
`surface_get_pixel` at the same coordinate decodes that word: the alpha that is
read back is the alpha that was written, and with alpha 0 the colour read back
is `(0,0,0,0)` whatever the red, green and blue channels were. -/
theorem surface_set_get_pixel (s : surface_t) (x y : Int) (c out : color_t) (hwf : s.wf)
    (hx0 : 0 ≤ x) (hx : x < s.width) (hy0 : 0 ≤ y) (hy : y < s.height)
    (hr : c.r ≤ 255) (hg : c.g ≤ 255) (hb : c.b ≤ 255) (ha : c.a ≤ 255) :
    ∃ s1 out1,
      surface_set_pixel s x y (some c) = .ok s1
      ∧ pixel_word s1 x y = .ok (color_get_premult c)
      ∧ surface_get_pixel color_set_premult s1 x y (some out) = .ok (some out1)
      ∧ out1.a = c.a
      ∧ (c.a = 0 → out1 = ⟨0, 0, 0, 0⟩) := by
  obtain ⟨K, hK, hKlen, _⟩ := pixel_index_wf s hwf x y hx0 hx hy0 hy
  have hv := color_get_premult_lt c hr hg hb ha
  have hset : surface_set_pixel s x y (some c)
      = .ok { s with pixels := s.pixels.take (4 * K) ++ bytes32 (color_get_premult c)
                ++ s.pixels.drop (4 * K + 4) } := by
    unfold surface_set_pixel
    simp only [if_pos (And.intro hx hy), hK, store32_nat _ K _ hKlen]
  have hload : load32 (s.pixels.take (4 * K) ++ bytes32 (color_get_premult c)
      ++ s.pixels.drop (4 * K + 4)) (K : Int) = .ok (color_get_premult c) := by
    rw [load32_store32 s.pixels K K _ hv hKlen hKlen, if_pos rfl]
  obtain ⟨h1, h2⟩ := color_set_premult_alpha out c hr hg hb ha
  refine ⟨_, color_set_premult out (color_get_premult c), hset, ?_, ?_, h1, h2⟩
  · unfold pixel_word
    simp only [hK, hload]
  · unfold surface_get_pixel
    simp only [if_pos (And.intro hx hy), hK, hload]

theorem surface_set_get_pixel_witness :
    (demo_surface demo_ramp).wf
    ∧ ∃ s1 out1,
        surface_set_pixel (demo_surface demo_ramp) 1 1 (some ⟨200, 100, 50, 128⟩) = .ok s1
        ∧ surface_get_pixel color_set_premult s1 1 1 (some demo_white) = .ok (some out1)
        ∧ out1.a = 128 :=
  have h := surface_set_get_pixel (demo_surface demo_ramp) 1 1 ⟨200, 100, 50, 128⟩ demo_white
    (demo_surface_wf demo_ramp rfl) (by decide) (by decide) (by decide) (by decide)
    (by decide) (by decide) (by decide) (by decide)
  ⟨demo_surface_wf demo_ramp rfl,
    match h with
    | ⟨s1, out1, h1, _, h3, h4, _⟩ => ⟨s1, out1, h1, h3, h4⟩⟩

theorem row_bytes_cons (p : Nat × Nat × Nat × Nat) (rest : List (Nat × Nat × Nat × Nat)) :
    row_bytes (p :: rest) = p.1 :: p.2.1 :: p.2.2.1 :: p.2.2.2 :: row_bytes rest := rfl

theorem convert_pixel_eq (r g b : Nat) (hr : r ≤ 255) (hg : g ≤ 255) (hb : b ≤ 255) :
    convert_pixel r g b = 0xff000000 ||| (r <<< 16) ||| (g <<< 8) ||| b := by
  unfold convert_pixel
  simp only [Nat.shiftLeft_zero]
  have h := argb_lt 0xff r g b (by decide) hr hg hb
  rw [Nat.mod_eq_of_lt h]
  rfl

/-- C15: for every row of 4-byte pixels whose red, green and blue bytes are in
0..255, `premultiply_data` on the row with every alpha byte equal to 255 and
`convert_bytes_to_data` on the row with any fourth bytes produce the same
bytes: for each pixel the bytes of the word `0xff000000 | (r<<16) | (g<<8) | b`. -/
theorem premultiply_opaque_eq_convert (px : List (Nat × Nat × Nat × Nat))
    (h : ∀ p ∈ px, p.1 ≤ 255 ∧ p.2.1 ≤ 255 ∧ p.2.2.1 ≤ 255) :
    premultiply_data (row_bytes (px.map (fun p => (p.1, p.2.1, p.2.2.1, 255))))
      = row_words (px.map (fun p => 0xff000000 ||| (p.1 <<< 16) ||| (p.2.1 <<< 8) ||| p.2.2.1))
    ∧ convert_bytes_to_data (row_bytes px)
      = row_words (px.map (fun p => 0xff000000 ||| (p.1 <<< 16) ||| (p.2.1 <<< 8) ||| p.2.2.1))
    ∧ premultiply_data (row_bytes (px.map (fun p => (p.1, p.2.1, p.2.2.1, 255))))
      = convert_bytes_to_data (row_bytes px) := by
  have key : premultiply_data (row_bytes (px.map (fun p => (p.1, p.2.1, p.2.2.1, 255))))
      = row_words (px.map (fun p => 0xff000000 ||| (p.1 <<< 16) ||| (p.2.1 <<< 8) ||| p.2.2.1))
    ∧ convert_bytes_to_data (row_bytes px)
      = row_words (px.map (fun p => 0xff000000 ||| (p.1 <<< 16) ||| (p.2.1 <<< 8) ||| p.2.2.1)) := by
    induction px with
    | nil => exact ⟨rfl, rfl⟩
    | cons p rest ih =>
      obtain ⟨hr, hg, hb⟩ := h p (List.mem_cons_self _ _)
      obtain ⟨ih1, ih2⟩ := ih (fun q hq => h q (List.mem_cons_of_mem _ hq))
      have e1 : premultiply_pixel p.1 p.2.1 p.2.2.1 255
          = 0xff000000 ||| (p.1 <<< 16) ||| (p.2.1 <<< 8) ||| p.2.2.1 := by
        rw [premultiply_pixel_eq _ _ _ _ hr hg hb (by decide)]
        unfold color_get_premult
        simp only [premul_255 _ hr, premul_255 _ hg, premul_255 _ hb]
        rfl
      constructor
      · simp only [List.map_cons, row_bytes_cons, premultiply_data, row_words, e1, ih1]
      · simp only [List.map_cons, row_bytes_cons, convert_bytes_to_data, row_words,
          convert_pixel_eq _ _ _ hr hg hb, ih2]
  exact ⟨key.1, key.2, key.1.trans key.2.symm⟩

theorem premultiply_opaque_eq_convert_witness :
    (∀ p ∈ [((1 : Nat), (2 : Nat), (3 : Nat), (77 : Nat)), (4, 5, 6, 0)],
      p.1 ≤ 255 ∧ p.2.1 ≤ 255 ∧ p.2.2.1 ≤ 255)
    ∧ premultiply_data [1, 2, 3, 255, 4, 5, 6, 255]
        = convert_bytes_to_data [1, 2, 3, 77, 4, 5, 6, 0] :=
  ⟨by decide,
    (premultiply_opaque_eq_convert [(1, 2, 3, 77), (4, 5, 6, 0)] (by decide)).2.2⟩


theorem strchr_append_of_not_mem (pre rest : List Char) (ch : Char) (h : ch ∉ pre) :
    strchr (pre ++ ch :: rest) ch = some (ch :: rest) := by
  induction pre with
  | nil => simp [strchr]
  | cons c cs ih =>
    have h1 : ¬ c = ch := fun e => h (by rw [e]; exact List.mem_cons_self _ _)
    have h2 : ch ∉ cs := fun e => h (List.mem_cons_of_mem _ e)
    simp [strchr, h1, ih h2]

theorem fileext_loop_no_dot (ret s : List Char) (c : Char) (h : '.' ∉ s) :
    fileext_loop ret (c :: s) = ret := by
  rw [fileext_loop]
  have : strchr s '.' = none := strchr_none_of_not_mem s '.' h
  simp only [List.drop_succ_cons, List.drop_zero]
  split
  · rfl
  · rename_i q hq
    rw [this] at hq
    cases hq

theorem exists_first_split (s : List Char) (ch : Char) (h : ch ∈ s) :
    ∃ pre rest, s = pre ++ ch :: rest ∧ ch ∉ pre := by
  induction s with
  | nil => cases h
  | cons c cs ih =>
    by_cases hc : c = ch
    · exact ⟨[], cs, by rw [hc]; rfl, List.not_mem_nil _⟩
    · have h2 : ch ∈ cs := by
        rcases List.mem_cons.mp h with e | e
        · exact absurd e.symm hc
        · exact e
      obtain ⟨pre, rest, e, hp⟩ := ih h2
      refine ⟨c :: pre, rest, by rw [e]; rfl, ?_⟩
      intro hm
      rcases List.mem_cons.mp hm with e1 | e1
      · exact hc e1.symm
      · exact hp e1

theorem fileext_loop_last (n : Nat) :
    ∀ (s ext ret : List Char) (c : Char), s.length ≤ n → '.' ∉ ext →
      (∃ mid, s = mid ++ '.' :: ext) → fileext_loop ret (c :: s) = '.' :: ext := by
  induction n with
  | zero =>
    intro s ext ret c hlen _ hs
    obtain ⟨mid, rfl⟩ := hs
    simp at hlen
  | succ n ih =>
    intro s ext ret c hlen hext hs
    obtain ⟨mid, hmid⟩ := hs
    by_cases hm : '.' ∈ mid
    · obtain ⟨pre, rest, e, hp⟩ := exists_first_split mid '.' hm
      have hs2 : s = pre ++ '.' :: (rest ++ '.' :: ext) := by
        rw [hmid, e]; simp
      have hstr : strchr s '.' = some ('.' :: (rest ++ '.' :: ext)) := by
        rw [hs2]; exact strchr_append_of_not_mem pre _ '.' hp
      rw [fileext_loop]
      simp only [List.drop_succ_cons, List.drop_zero]
      split
      · rename_i hq
        rw [hstr] at hq
        cases hq
      · rename_i q hq
        rw [hstr] at hq
        cases hq
        apply ih (rest ++ '.' :: ext) ext _ '.' _ hext ⟨rest, rfl⟩
        rw [hs2] at hlen
        simp at hlen ⊢
        omega
    · have hstr : strchr s '.' = some ('.' :: ext) := by
        rw [hmid]; exact strchr_append_of_not_mem mid _ '.' hm
      rw [fileext_loop]
      simp only [List.drop_succ_cons, List.drop_zero]
      split
      · rename_i hq
        rw [hstr] at hq
        cases hq
      · rename_i q hq
        rw [hstr] at hq
        cases hq
        exact fileext_loop_no_dot _ ext '.' hext

theorem fileext_eq (pre ext : List Char) (hext : '.' ∉ ext) :
    fileext (some (pre ++ '.' :: ext)) = some ext := by
  unfold fileext
  by_cases hm : '.' ∈ pre
  · obtain ⟨p1, rest, e, hp⟩ := exists_first_split pre '.' hm
    have hs2 : pre ++ '.' :: ext = p1 ++ '.' :: (rest ++ '.' :: ext) := by
      rw [e]; simp
    have hstr := strchr_append_of_not_mem p1 (rest ++ '.' :: ext) '.' hp
    rw [hs2]
    simp only [hstr]
    rw [fileext_loop_last _ (rest ++ '.' :: ext) ext _ '.' (le_refl _) hext ⟨rest, rfl⟩]
    rfl
  · have hstr := strchr_append_of_not_mem pre ext '.' hm
    simp only [hstr]
    rw [fileext_loop_no_dot _ ext '.' hext]
    rfl

theorem exists_last_split (s : List Char) (ch : Char) (h : ch ∈ s) :
    ∃ pre ext, s = pre ++ ch :: ext ∧ ch ∉ ext := by
  obtain ⟨p, r, e, hp⟩ := exists_first_split s.reverse ch (List.mem_reverse.mpr h)
  refine ⟨r.reverse, p.reverse, ?_, fun hm => hp (List.mem_reverse.mp hm)⟩
  have := congrArg List.reverse e
  simpa using this

theorem char_toNat_inj (c d : Char) (h : c.toNat = d.toNat) : c = d := by
  rw [← Char.ofNat_toNat c, ← Char.ofNat_toNat d, h]

theorem toLower_toNat_ne_zero (c : Char) (h : c.toNat ≠ 0) : c.toLower.toNat ≠ 0 := by
  unfold Char.toLower
  simp only
  split
  · rename_i hc
    obtain ⟨h1, h2⟩ := hc
    generalize c.toNat = n at h1 h2
    interval_cases n <;> decide
  · exact h

theorem strcasecmp_eq_zero_iff :
    ∀ (a b : List Char), (∀ c ∈ a, c.toNat ≠ 0) → (∀ c ∈ b, c.toNat ≠ 0) →
      (strcasecmp a b = 0 ↔ a.map Char.toLower = b.map Char.toLower)
  | [], [], _, _ => by simp [strcasecmp]
  | [], c2 :: s2, _, hb => by
    have := toLower_toNat_ne_zero c2 (hb c2 (List.mem_cons_self _ _))
    simp only [strcasecmp, List.map_nil, List.map_cons]
    constructor
    · intro h; omega
    · intro h; cases h
  | c1 :: s1, [], ha, _ => by
    have := toLower_toNat_ne_zero c1 (ha c1 (List.mem_cons_self _ _))
    simp only [strcasecmp, List.map_nil, List.map_cons]
    constructor
    · intro h; omega
    · intro h; cases h
  | c1 :: s1, c2 :: s2, ha, hb => by
    have ih := strcasecmp_eq_zero_iff s1 s2 (fun c hc => ha c (List.mem_cons_of_mem _ hc))
      (fun c hc => hb c (List.mem_cons_of_mem _ hc))
    simp only [strcasecmp, List.map_cons, List.cons.injEq]
    by_cases hc : c1.toLower = c2.toLower
    · rw [if_pos hc, ih]
      exact ⟨fun h => ⟨hc, h⟩, fun h => h.2⟩
    · rw [if_neg hc]
      constructor
      · intro h
        exact absurd (char_toNat_inj _ _ (by omega)) hc
      · intro h
        exact absurd h.1 hc

theorem codec_probe_ne (ctx : Nat) (f : Option (List Char)) :
    codec_probe 'p' ctx f ≠ codec_probe 'j' ctx f
    ∧ codec_probe 'p' ctx f ≠ (.ok none, [])
    ∧ codec_probe 'j' ctx f ≠ (.ok none, []) := by
  refine ⟨?_, ?_, ?_⟩ <;> intro h <;> simp [codec_probe] at h

/-- C16: for every file name `f` with at least one `'.'` (and, as a C string,
without a NUL character), `fileext` returns the text `ext` after the last
`'.'`, which contains no `'.'`, and `surface_alloc_from_xfs` chooses the codec
from `ext` alone, compared without regard to case: the PNG decoder iff `ext`
is `png`, the JPEG decoder iff it is `jpg` or `jpeg`, and no decoder
otherwise. -/
theorem surface_alloc_from_xfs_family
    (png jpeg : Nat → Option (List Char) → Except fault_t (Option surface_t) × List event_t)
    (ctx : Nat) (f : List Char) (hdot : '.' ∈ f) (hnul : ∀ c ∈ f, c.toNat ≠ 0) :
    ∃ pre ext, f = pre ++ '.' :: ext ∧ '.' ∉ ext ∧ fileext (some f) = some ext
      ∧ (ext.map Char.toLower = "png".toList →
          surface_alloc_from_xfs png jpeg ctx (some f) = png ctx (some f))
      ∧ (ext.map Char.toLower = "jpg".toList ∨ ext.map Char.toLower = "jpeg".toList →
          surface_alloc_from_xfs png jpeg ctx (some f) = jpeg ctx (some f))
      ∧ (ext.map Char.toLower ≠ "png".toList → ext.map Char.toLower ≠ "jpg".toList →
          ext.map Char.toLower ≠ "jpeg".toList →
          surface_alloc_from_xfs png jpeg ctx (some f) = (.ok none, []))
      ∧ (surface_alloc_from_xfs (codec_probe 'p') (codec_probe 'j') ctx (some f)
            = codec_probe 'p' ctx (some f)
          ↔ ext.map Char.toLower = "png".toList)
      ∧ (surface_alloc_from_xfs (codec_probe 'p') (codec_probe 'j') ctx (some f)
            = codec_probe 'j' ctx (some f)
          ↔ (ext.map Char.toLower = "jpg".toList ∨ ext.map Char.toLower = "jpeg".toList)) := by
  obtain ⟨pre, ext, hf, hext⟩ := exists_last_split f '.' hdot
  have hnul_ext : ∀ c ∈ ext, c.toNat ≠ 0 := fun c hc =>
    hnul c (by rw [hf]; exact List.mem_append_right _ (List.mem_cons_of_mem _ hc))
  have hfe : fileext (some f) = some ext := by rw [hf]; exact fileext_eq pre ext hext
  have hp : strcasecmp ext "png".toList = 0 ↔ ext.map Char.toLower = "png".toList :=
    strcasecmp_eq_zero_iff ext "png".toList hnul_ext (by decide)
  have hj : strcasecmp ext "jpg".toList = 0 ↔ ext.map Char.toLower = "jpg".toList :=
    strcasecmp_eq_zero_iff ext "jpg".toList hnul_ext (by decide)
  have hje : strcasecmp ext "jpeg".toList = 0 ↔ ext.map Char.toLower = "jpeg".toList :=
    strcasecmp_eq_zero_iff ext "jpeg".toList hnul_ext (by decide)
  have hpj : ext.map Char.toLower = "png".toList →
      ¬ (ext.map Char.toLower = "jpg".toList ∨ ext.map Char.toLower = "jpeg".toList) := by
    intro h1 h2
    rw [h1] at h2
    revert h2
    decide
  have case_png : ∀ pg jp, ext.map Char.toLower = "png".toList →
      surface_alloc_from_xfs pg jp ctx (some f) = pg ctx (some f) := by
    intro pg jp h
    unfold surface_alloc_from_xfs
    rw [hfe]
    simp only [if_pos (hp.mpr h)]
  have case_jpeg : ∀ pg jp,
      (ext.map Char.toLower = "jpg".toList ∨ ext.map Char.toLower = "jpeg".toList) →
      surface_alloc_from_xfs pg jp ctx (some f) = jp ctx (some f) := by
    intro pg jp h
    have h1 : ¬ strcasecmp ext "png".toList = 0 := fun e => hpj (hp.mp e) h
    have h2 : strcasecmp ext "jpg".toList = 0 ∨ strcasecmp ext "jpeg".toList = 0 :=
      h.imp hj.mpr hje.mpr
    unfold surface_alloc_from_xfs
    rw [hfe]
    simp only [if_neg h1, if_pos h2]
  have case_none : ∀ pg jp, ext.map Char.toLower ≠ "png".toList →
      ext.map Char.toLower ≠ "jpg".toList → ext.map Char.toLower ≠ "jpeg".toList →
      surface_alloc_from_xfs pg jp ctx (some f) = (.ok none, []) := by
    intro pg jp h1 h2 h3
    exact surface_alloc_from_xfs_unknown pg jp ctx (some f) ext hfe (fun e => h1 (hp.mp e))
      (fun e => h2 (hj.mp e)) (fun e => h3 (hje.mp e))
  obtain ⟨n1, n2, n3⟩ := codec_probe_ne ctx (some f)
  refine ⟨pre, ext, hf, hext, hfe, case_png png jpeg, case_jpeg png jpeg, case_none png jpeg,
    ?_, ?_⟩
  · constructor
    · intro h
      by_contra hne
      by_cases hjj : ext.map Char.toLower = "jpg".toList ∨ ext.map Char.toLower = "jpeg".toList
      · rw [case_jpeg _ _ hjj] at h
        exact n1 h.symm
      · rw [case_none _ _ hne (fun e => hjj (Or.inl e)) (fun e => hjj (Or.inr e))] at h
        exact n2 h.symm
    · exact case_png _ _
  · constructor
    · intro h
      by_contra hne
      by_cases hpp : ext.map Char.toLower = "png".toList
      · rw [case_png _ _ hpp] at h
        exact n1 h
      · rw [case_none _ _ hpp (fun e => hne (Or.inl e)) (fun e => hne (Or.inr e))] at h
        exact n3 h.symm
    · exact case_jpeg _ _

theorem surface_alloc_from_xfs_family_witness :
    '.' ∈ "a.b.PnG".toList ∧ (∀ c ∈ "a.b.PnG".toList, c.toNat ≠ 0)
    ∧ ∃ pre ext, "a.b.PnG".toList = pre ++ '.' :: ext ∧ '.' ∉ ext
        ∧ fileext (some "a.b.PnG".toList) = some ext :=
  have h := surface_alloc_from_xfs_family (codec_probe 'p') (codec_probe 'j') 0
    "a.b.PnG".toList (by decide) (by decide)
  ⟨by decide, by decide,
    match h with
    | ⟨pre, ext, h1, h2, h3, _⟩ => ⟨pre, ext, h1, h2, h3⟩⟩


theorem clear_row_nat (v : Nat) (hv : v < 2 ^ 32) :
    ∀ (n : Nat) (mem : List Nat) (p : Nat), 4 * (p + n) ≤ mem.length →
      ∃ res, clear_row v n mem (p : Int) = .ok res ∧ res.length = mem.length
        ∧ ∀ j, 4 * j + 4 ≤ mem.length →
            load32 res (j : Int) = if p ≤ j ∧ j < p + n then .ok v else load32 mem (j : Int) := by
  intro n
  induction n with
  | zero =>
    intro mem p _
    refine ⟨mem, rfl, rfl, fun j _ => ?_⟩
    rw [if_neg (by omega)]
  | succ n ih =>
    intro mem p hp
    have hk : 4 * p + 4 ≤ mem.length := by omega
    have hlen := store32_nat_length mem p v hk
    obtain ⟨res, hres, hl, hget⟩ :=
      ih (mem.take (4 * p) ++ bytes32 v ++ mem.drop (4 * p + 4)) (p + 1)
        (by rw [hlen]; omega)
    refine ⟨res, ?_, by rw [hl, hlen], ?_⟩
    · show (match store32 mem (p : Int) v with
        | .ok mem1 => clear_row v n mem1 ((p : Int) + 1)
        | .error f => .error f) = .ok res
      rw [store32_nat mem p v hk]
      simp only
      have c1 : ((p : Int) + 1) = ((p + 1 : Nat) : Int) := by push_cast; rfl
      rw [c1]
      exact hres
    · intro j hj
      rw [hget j (by rw [hlen]; exact hj), load32_store32 mem p j v hv hk hj]
      by_cases h1 : p + 1 ≤ j ∧ j < p + 1 + n
      · rw [if_pos h1, if_pos (by omega)]
      · rw [if_neg h1]
        by_cases h2 : j = p
        · rw [if_pos h2, if_pos (by omega)]
        · rw [if_neg h2, if_neg (by omega)]

theorem clear_rows_nat (v : Nat) (hv : v < 2 ^ 32) (L cols : Nat) :
    ∀ (n : Nat) (mem : List Nat) (q : Nat),
      (∀ i, i < n → 4 * (q + i * L + cols) ≤ mem.length) →
      ∃ res, clear_rows v (L : Int) cols n mem (q : Int) = .ok res
        ∧ res.length = mem.length
        ∧ (∀ j, 4 * j + 4 ≤ mem.length →
            (∃ i, i < n ∧ q + i * L ≤ j ∧ j < q + i * L + cols) →
            load32 res (j : Int) = .ok v)
        ∧ (∀ j, 4 * j + 4 ≤ mem.length →
            (∀ i, i < n → ¬ (q + i * L ≤ j ∧ j < q + i * L + cols)) →
            load32 res (j : Int) = load32 mem (j : Int)) := by
  intro n
  induction n with
  | zero =>
    intro mem q _
    refine ⟨mem, rfl, rfl, fun j _ h => ?_, fun j _ _ => rfl⟩
    obtain ⟨i, hi, _⟩ := h
    exact absurd hi (Nat.not_lt_zero _)
  | succ n ih =>
    intro mem q hq
    have h0 := hq 0 (Nat.succ_pos n)
    simp only [Nat.zero_mul, Nat.add_zero] at h0
    obtain ⟨m1, hm1, hl1, hg1⟩ := clear_row_nat v hv cols mem q h0
    obtain ⟨res, hres, hl, hin, hout⟩ := ih m1 (q + L)
      (fun i hi => by
        have := hq (i + 1) (Nat.succ_lt_succ hi)
        have e : (i + 1) * L = i * L + L := Nat.succ_mul i L
        rw [hl1]
        omega)
    have shift : ∀ i j, (q + L + i * L ≤ j ∧ j < q + L + i * L + cols)
        ↔ (q + (i + 1) * L ≤ j ∧ j < q + (i + 1) * L + cols) := by
      intro i j
      have e : (i + 1) * L = i * L + L := Nat.succ_mul i L
      constructor <;> intro h <;> constructor <;> omega
    refine ⟨res, ?_, by rw [hl, hl1], ?_, ?_⟩
    · show (match clear_row v cols mem (q : Int) with
        | .ok mem1 => clear_rows v (L : Int) cols n mem1 ((q : Int) + (L : Int))
        | .error f => .error f) = .ok res
      rw [hm1]
      simp only
      have c1 : ((q : Int) + (L : Int)) = ((q + L : Nat) : Int) := by push_cast; rfl
      rw [c1]
      exact hres
    · intro j hj hex
      by_cases hlater : ∃ i, i < n ∧ q + L + i * L ≤ j ∧ j < q + L + i * L + cols
      · exact hin j (by rw [hl1]; exact hj) hlater
      · have hnone : ∀ i, i < n → ¬ (q + L + i * L ≤ j ∧ j < q + L + i * L + cols) :=
          fun i hi h => hlater ⟨i, hi, h⟩
        rw [hout j (by rw [hl1]; exact hj) hnone, hg1 j hj]
        obtain ⟨i, hi, hrow⟩ := hex
        cases i with
        | zero =>
          simp only [Nat.zero_mul, Nat.add_zero] at hrow
          rw [if_pos hrow]
        | succ i =>
          exact absurd ((shift i j).mpr hrow) (hnone i (Nat.lt_of_succ_lt_succ hi))
    · intro j hj hnone
      have hnone2 : ∀ i, i < n → ¬ (q + L + i * L ≤ j ∧ j < q + L + i * L + cols) :=
        fun i hi h => hnone (i + 1) (Nat.succ_lt_succ hi) ((shift i j).mp h)
      rw [hout j (by rw [hl1]; exact hj) hnone2, hg1 j hj]
      have h0' := hnone 0 (Nat.succ_pos n)
      simp only [Nat.zero_mul, Nat.add_zero] at h0'
      rw [if_neg h0']

theorem clear_value_lt (c : Option color_t) : clear_value c < 2 ^ 32 := by
  unfold clear_value
  cases c with
  | none => decide
  | some c => exact Nat.mod_lt _ (by decide)

theorem clear_value_some (c : color_t) (hr : c.r ≤ 255) (hg : c.g ≤ 255) (hb : c.b ≤ 255)
    (ha : c.a ≤ 255) : clear_value (some c) = color_get_premult c := by
  unfold clear_value
  exact Nat.mod_eq_of_lt (color_get_premult_lt c hr hg hb ha)

theorem rect_row_iff (W X1 X2 Y1 Y2 X Y : Nat) (hXW : X2 ≤ W) (hX : X < W) :
    (∃ i, i < Y2 - Y1 ∧ Y1 * W + X1 + i * W ≤ Y * W + X
        ∧ Y * W + X < Y1 * W + X1 + i * W + (X2 - X1))
      ↔ (X1 ≤ X ∧ X < X2 ∧ Y1 ≤ Y ∧ Y < Y2) := by
  constructor
  · rintro ⟨i, hi, h1, h2⟩
    have e : (Y1 + i) * W = Y1 * W + i * W := Nat.add_mul Y1 i W
    have hY : Y = Y1 + i := by
      rcases Nat.lt_trichotomy Y (Y1 + i) with hlt | heq | hgt
      · have := Nat.mul_le_mul_right W (Nat.succ_le_of_lt hlt)
        rw [Nat.succ_mul] at this
        omega
      · exact heq
      · have := Nat.mul_le_mul_right W (Nat.succ_le_of_lt hgt)
        rw [Nat.succ_mul] at this
        omega
    subst hY
    refine ⟨by omega, by omega, by omega, by omega⟩
  · rintro ⟨h1, h2, h3, h4⟩
    refine ⟨Y - Y1, by omega, ?_, ?_⟩
    · have e : Y1 * W + (Y - Y1) * W = Y * W := by
        rw [← Nat.add_mul]; congr 1; omega
      omega
    · have e : Y1 * W + (Y - Y1) * W = Y * W := by
        rw [← Nat.add_mul]; congr 1; omega
      omega

theorem surface_clear_region_core (s : surface_t) (c : Option color_t) (r : region_t)
    (W H X1 X2 Y1 Y2 : Nat)
    (hw : s.width = W) (hh : s.height = H) (hs : s.stride = 4 * (W : Int))
    (hl : s.pixels.length = H * (4 * W))
    (hx1 : max 0 r.x = (X1 : Int)) (hx2 : min s.width (r.x + r.w) = (X2 : Int))
    (hy1 : max 0 r.y = (Y1 : Int)) (hy2 : min s.height (r.y + r.h) = (Y2 : Int))
    (hX : X1 ≤ X2) (hY : Y1 ≤ Y2) :
    ∃ res : List Nat,
      surface_clear s c (some r) = .ok { s with pixels := res }
      ∧ res.length = s.pixels.length
      ∧ ∀ X Y : Nat, X < W → Y < H →
          load32 res ((Y * W + X : Nat) : Int)
            = if X1 ≤ X ∧ X < X2 ∧ Y1 ≤ Y ∧ Y < Y2 then .ok (clear_value c)
              else load32 s.pixels ((Y * W + X : Nat) : Int) := by
  have hXW : X2 ≤ W := by omega
  have hYH : Y2 ≤ H := by omega
  have hbound : ∀ i, i < Y2 - Y1 →
      4 * (Y1 * W + X1 + i * W + (X2 - X1)) ≤ s.pixels.length := by
    intro i hi
    rw [hl]
    have h1 : (Y1 + i + 1) * W ≤ H * W := Nat.mul_le_mul_right _ (by omega)
    have h2 : (Y1 + i + 1) * W = Y1 * W + i * W + W := by ring
    have h3 : H * (4 * W) = 4 * (H * W) := by ring
    omega
  obtain ⟨res, hres, hlen, hin, hout⟩ :=
    clear_rows_nat (clear_value c) (clear_value_lt c) W (X2 - X1) (Y2 - Y1) s.pixels
      (Y1 * W + X1) hbound
  refine ⟨res, ?_, hlen, ?_⟩
  · unfold surface_clear
    simp only [hx1, hx2, hy1, hy2, hs]
    rw [if_pos (by exact_mod_cast hX), if_pos (by exact_mod_cast hY)]
    have e4 : (4 * (W : Int)) = ((4 * W : Nat) : Int) := by push_cast; rfl
    have ec : ((X2 : Int) - (X1 : Int)).toNat = X2 - X1 := by omega
    have er : ((Y2 : Int) - (Y1 : Int)).toNat = Y2 - Y1 := by omega
    have eq : (Y1 : Int) * (W : Int) + (X1 : Int) = ((Y1 * W + X1 : Nat) : Int) := by
      push_cast; rfl
    rw [e4, shr_two_four_mul, ec, er, eq, hres]
  · intro X Y hXlt hYlt
    have hj : 4 * (Y * W + X) + 4 ≤ s.pixels.length := by
      rw [hl]
      have h1 : (Y + 1) * W ≤ H * W := Nat.mul_le_mul_right _ (by omega)
      have h2 : (Y + 1) * W = Y * W + W := Nat.succ_mul Y W
      have h3 : H * (4 * W) = 4 * (H * W) := by ring
      omega
    have hiff := rect_row_iff W X1 X2 Y1 Y2 X Y hXW hXlt
    by_cases hrect : X1 ≤ X ∧ X < X2 ∧ Y1 ≤ Y ∧ Y < Y2
    · rw [if_pos hrect]
      exact hin _ hj (hiff.mpr hrect)
    · rw [if_neg hrect]
      exact hout _ hj (fun i hi h => hrect (hiff.mp ⟨i, hi, h⟩))

/-- C12: on a surface that satisfies the invariant of the data model,
`surface_clear(s, c, r)` with a region returns normally, leaves width, height,
stride and pixlen as they are, and afterwards every pixel inside the clamped
rectangle `[max(0,r.x), min(width, r.x+r.w)) x [max(0,r.y), min(height, r.y+r.h))`
holds `v` while every other pixel of the surface holds what it held before; `v`
is `0` without a colour and the premultiplied word of the colour otherwise. -/
theorem surface_clear_region (s : surface_t) (c : Option color_t) (r : region_t)
    (hwf : s.wf) :
    ∃ s1, surface_clear s c (some r) = .ok s1
      ∧ s1.width = s.width ∧ s1.height = s.height ∧ s1.stride = s.stride
      ∧ s1.pixlen = s.pixlen
      ∧ (∀ x y : Int, 0 ≤ x → x < s.width → 0 ≤ y → y < s.height →
          pixel_word s1 x y
            = if max 0 r.x ≤ x ∧ x < min s.width (r.x + r.w)
                ∧ max 0 r.y ≤ y ∧ y < min s.height (r.y + r.h)
              then .ok (clear_value c) else pixel_word s x y)
      ∧ clear_value none = 0
      ∧ (∀ col : color_t, col.r ≤ 255 → col.g ≤ 255 → col.b ≤ 255 → col.a ≤ 255 →
          clear_value (some col) = color_get_premult col) := by
  by_cases hx : max 0 r.x ≤ min s.width (r.x + r.w)
  · by_cases hy : max 0 r.y ≤ min s.height (r.y + r.h)
    · obtain ⟨hw0, hh0, hs, hp, hl⟩ := hwf
      obtain ⟨W, hW⟩ := Int.eq_ofNat_of_zero_le hw0
      obtain ⟨H, hH⟩ := Int.eq_ofNat_of_zero_le hh0
      obtain ⟨X1, hX1⟩ := Int.eq_ofNat_of_zero_le (le_max_left 0 r.x)
      obtain ⟨Y1, hY1⟩ := Int.eq_ofNat_of_zero_le (le_max_left 0 r.y)
      obtain ⟨X2, hX2⟩ := Int.eq_ofNat_of_zero_le (le_trans (le_max_left 0 r.x) hx)
      obtain ⟨Y2, hY2⟩ := Int.eq_ofNat_of_zero_le (le_trans (le_max_left 0 r.y) hy)
      have hXle : X1 ≤ X2 := by rw [hX1, hX2] at hx; exact_mod_cast hx
      have hYle : Y1 ≤ Y2 := by rw [hY1, hY2] at hy; exact_mod_cast hy
      have hs4 : s.stride = 4 * (W : Int) := by rw [hs, hW]
      have hlen : s.pixels.length = H * (4 * W) := by
        have : (s.pixels.length : Int) = (H : Int) * (4 * (W : Int)) := by
          rw [hl, hp, hH, hs4]
        exact_mod_cast this
      obtain ⟨res, hres, _, hget⟩ := surface_clear_region_core s c r W H X1 X2 Y1 Y2 hW hH hs4
        hlen hX1 hX2 hY1 hY2 hXle hYle
      refine ⟨_, hres, rfl, rfl, rfl, rfl, ?_, rfl, clear_value_some⟩
      intro x y hx0 hxw hy0 hyh
      obtain ⟨X, rfl⟩ := Int.eq_ofNat_of_zero_le hx0
      obtain ⟨Y, rfl⟩ := Int.eq_ofNat_of_zero_le hy0
      have hXW : X < W := by rw [hW] at hxw; exact_mod_cast hxw
      have hYH : Y < H := by rw [hH] at hyh; exact_mod_cast hyh
      have e4 : (4 * (W : Int)) = ((4 * W : Nat) : Int) := by push_cast; rfl
      have ei : (Y : Int) * (W : Int) + (X : Int) = ((Y * W + X : Nat) : Int) := by
        push_cast; rfl
      unfold pixel_word
      simp only [hs4, e4, shr_two_four_mul, ei, hX1, hX2, hY1, hY2]
      rw [hget X Y hXW hYH]
      by_cases hrect : X1 ≤ X ∧ X < X2 ∧ Y1 ≤ Y ∧ Y < Y2
      · rw [if_pos hrect, if_pos (by exact_mod_cast hrect)]
      · rw [if_neg hrect, if_neg (by exact_mod_cast hrect)]
    · refine ⟨s, ?_, rfl, rfl, rfl, rfl, ?_, rfl, clear_value_some⟩
      · unfold surface_clear
        simp only [if_pos hx, if_neg hy]
      · intro x y _ _ _ _
        rw [if_neg (by omega)]
  · refine ⟨s, ?_, rfl, rfl, rfl, rfl, ?_, rfl, clear_value_some⟩
    · unfold surface_clear
      simp only [if_neg hx]
    · intro x y _ _ _ _
      rw [if_neg (by omega)]

theorem surface_clear_region_witness :
    (demo_surface demo_ramp).wf
    ∧ ∃ s1, surface_clear (demo_surface demo_ramp) (some demo_white) (some ⟨1, -1, 5, 2⟩)
          = .ok s1
        ∧ pixel_word s1 1 0 = .ok (clear_value (some demo_white))
        ∧ pixel_word s1 0 0 = pixel_word (demo_surface demo_ramp) 0 0 :=
  have h := surface_clear_region (demo_surface demo_ramp) (some demo_white) ⟨1, -1, 5, 2⟩
    (demo_surface_wf demo_ramp rfl)
  ⟨demo_surface_wf demo_ramp rfl,
    match h with
    | ⟨s1, h1, _, _, _, _, h6, _⟩ =>
      ⟨s1, h1, (h6 1 0 (by decide) (by decide) (by decide) (by decide)).trans (if_pos (by decide)),
        (h6 0 0 (by decide) (by decide) (by decide) (by decide)).trans (if_neg (by decide))⟩⟩

theorem memset_whole (s : surface_t) (hwf : s.wf) (c : Nat) :
    memset s.pixels c s.pixlen = .ok (List.replicate s.pixels.length c) := by
  obtain ⟨_, _, _, _, hl⟩ := hwf
  unfold memset
  have hc : 0 ≤ s.pixlen ∧ s.pixlen ≤ (s.pixels.length : Int) := by
    constructor <;> omega
  have e : s.pixlen.toNat = s.pixels.length := by omega
  rw [if_pos hc, e, List.drop_length, List.append_nil]

theorem load32_replicate (n c j : Nat) (h : 4 * j + 4 ≤ n) :
    load32 (List.replicate n c) (j : Int) = .ok (c + 256 * c + 65536 * c + 16777216 * c) := by
  rw [load32_nat _ j (by simpa using h)]
  simp only [List.getD_eq_getElem?_getD]
  rw [List.getElem?_replicate_of_lt (by omega), List.getElem?_replicate_of_lt (by omega),
    List.getElem?_replicate_of_lt (by omega), List.getElem?_replicate_of_lt (by omega)]
  rfl

theorem surface_get_pixel_of_word (dec : color_t → Nat → color_t) (s : surface_t)
    (x y : Int) (out : color_t) (v : Nat) (hx : x < s.width) (hy : y < s.height)
    (h : pixel_word s x y = .ok v) :
    surface_get_pixel dec s x y (some out) = .ok (some (dec out v)) := by
  unfold pixel_word at h
  unfold surface_get_pixel
  simp only [if_pos (And.intro hx hy), h]

theorem surface_clear_whole_words (s : surface_t) (c : Option color_t) (hwf : s.wf) :
    ∃ res : List Nat, surface_clear s c none = .ok { s with pixels := res }
      ∧ res.length = s.pixels.length
      ∧ (clear_value c = 0 → res = List.replicate s.pixels.length 0)
      ∧ (clear_value c = 0xffffffff → res = List.replicate s.pixels.length 0xff)
      ∧ ∀ j : Nat, 4 * j + 4 ≤ s.pixels.length → load32 res (j : Int) = .ok (clear_value c) := by
  by_cases h0 : clear_value c = 0
  · refine ⟨List.replicate s.pixels.length 0, ?_, by simp, fun _ => rfl, ?_, ?_⟩
    · unfold surface_clear
      simp only [h0, ne_eq, not_true_eq_false, if_false, memset_whole s hwf]
    · intro h; rw [h0] at h; cases h
    · intro j hj
      rw [load32_replicate _ _ _ hj, h0]
  · by_cases hff : clear_value c = 0xffffffff
    · refine ⟨List.replicate s.pixels.length 0xff, ?_, by simp, fun h => absurd h h0,
        fun _ => rfl, ?_⟩
      · unfold surface_clear
        simp only [hff, memset_whole s hwf]
        rfl
      · intro j hj
        rw [load32_replicate _ _ _ hj, hff]
    · obtain ⟨hw0, hh0, hs, hp, hl⟩ := hwf
      obtain ⟨W, hW⟩ := Int.eq_ofNat_of_zero_le hw0
      obtain ⟨H, hH⟩ := Int.eq_ofNat_of_zero_le hh0
      have hlen : s.pixels.length = H * (4 * W) := by
        have : (s.pixels.length : Int) = (H : Int) * (4 * (W : Int)) := by
          rw [hl, hp, hH, hs, hW]
        exact_mod_cast this
      have a2 : H * (4 * W) = 4 * (W * H) := by ring
      obtain ⟨res, hres, hrl, hget⟩ := clear_row_nat (clear_value c) (clear_value_lt c)
        (W * H) s.pixels 0 (by rw [hlen, a2]; omega)
      refine ⟨res, ?_, hrl, fun h => absurd h h0, fun h => absurd h hff, ?_⟩
      · unfold surface_clear
        have el : s.width * s.height = ((W * H : Nat) : Int) := by
          rw [hW, hH]; push_cast; rfl
        have hneg : ¬ (((W * H : Nat) : Int) < 0) := by omega
        simp only [el, ne_eq, h0, not_false_eq_true, if_true, hff, if_false, hneg,
          Int.toNat_ofNat]
        simp only [Nat.cast_zero] at hres
        rw [hres]
      · intro j hj
        rw [hget j hj, if_pos ⟨Nat.zero_le _, by rw [hlen, a2] at hj; omega⟩]

/-- C13: on a surface that satisfies the invariant of the data model,
`surface_clear(s, c, NULL)` returns normally and afterwards every pixel word of
the surface is `v`, the premultiplied word of `c` or `0` without a colour,
whether the buffer was filled with zero bytes (`v = 0`), with `0xff` bytes
(`v = 0xffffffff`) or word by word; so after clearing with opaque white every
pixel is read back as `(255,255,255,255)`, and after clearing without a colour
every pixel is read back as `(0,0,0,0)`. -/
theorem surface_clear_whole (s : surface_t) (c : Option color_t) (hwf : s.wf) :
    ∃ s1, surface_clear s c none = .ok s1
      ∧ s1.width = s.width ∧ s1.height = s.height ∧ s1.stride = s.stride
      ∧ s1.pixlen = s.pixlen
      ∧ (clear_value c = 0 → s1.pixels = List.replicate s.pixels.length 0)
      ∧ (clear_value c = 0xffffffff → s1.pixels = List.replicate s.pixels.length 0xff)
      ∧ (∀ x y : Int, 0 ≤ x → x < s.width → 0 ≤ y → y < s.height →
          pixel_word s1 x y = .ok (clear_value c))
      ∧ (c = some ⟨255, 255, 255, 255⟩ →
          ∀ (x y : Int) (out : color_t), 0 ≤ x → x < s.width → 0 ≤ y → y < s.height →
            surface_get_pixel color_set_premult s1 x y (some out)
              = .ok (some ⟨255, 255, 255, 255⟩))
      ∧ (c = none →
          ∀ (x y : Int) (out : color_t), 0 ≤ x → x < s.width → 0 ≤ y → y < s.height →
            surface_get_pixel color_set_premult s1 x y (some out)
              = .ok (some ⟨0, 0, 0, 0⟩)) := by
  obtain ⟨res, hres, hlen, hz, hf, hget⟩ := surface_clear_whole_words s c hwf
  have hword : ∀ x y : Int, 0 ≤ x → x < s.width → 0 ≤ y → y < s.height →
      pixel_word { s with pixels := res } x y = .ok (clear_value c) := by
    intro x y hx0 hx hy0 hy
    obtain ⟨K, hK, hKlen, _⟩ := pixel_index_wf s hwf x y hx0 hx hy0 hy
    unfold pixel_word
    simp only [hK]
    exact hget K hKlen
  refine ⟨_, hres, rfl, rfl, rfl, rfl, hz, hf, hword, ?_, ?_⟩
  · intro hc x y out hx0 hx hy0 hy
    have h := surface_get_pixel_of_word color_set_premult { s with pixels := res } x y out _
      hx hy (hword x y hx0 hx hy0 hy)
    rw [h, hc]
    rfl
  · intro hc x y out hx0 hx hy0 hy
    have h := surface_get_pixel_of_word color_set_premult { s with pixels := res } x y out _
      hx hy (hword x y hx0 hx hy0 hy)
    rw [h, hc]
    rfl

theorem surface_clear_whole_witness :
    (demo_surface demo_ramp).wf
    ∧ ∃ s1, surface_clear (demo_surface demo_ramp) (some ⟨255, 255, 255, 255⟩) none = .ok s1
        ∧ surface_get_pixel color_set_premult s1 1 1 (some ⟨1, 2, 3, 4⟩)
            = .ok (some ⟨255, 255, 255, 255⟩) :=
  have h := surface_clear_whole (demo_surface demo_ramp) (some ⟨255, 255, 255, 255⟩)
    (demo_surface_wf demo_ramp rfl)
  ⟨demo_surface_wf demo_ramp rfl,
    match h with
    | ⟨s1, h1, _, _, _, _, _, _, _, h9, _⟩ =>
      ⟨s1, h1, h9 rfl 1 1 ⟨1, 2, 3, 4⟩ (by decide) (by decide) (by decide) (by decide)⟩⟩

theorem clone_finish_no_oob (s : surface_t) (w h st pl : Int) (px : List Nat) :
    (clone_finish s w h st pl px).1 ≠ .error .out_of_bounds := by
  unfold clone_finish
  cases s.r with
  | none => simp
  | some rd =>
    simp only
    cases rd.create w h st pl px with
    | none => simp
    | some ctx => simp

theorem surface_clone_region_no_oob (env : env_t) (s : surface_t) (r : region_t)
    (hwf : s.wf) : (surface_clone env (some s) (some r)).1 ≠ .error .out_of_bounds := by
  by_cases hx : max 0 r.x ≤ min s.width (r.x + r.w)
  · by_cases hy : max 0 r.y ≤ min s.height (r.y + r.h)
    · by_cases hm : env.malloc_ok = true
      · by_cases ha : env.memalign_ok ((min s.height (r.y + r.h) - max 0 r.y)
            * shl (min s.width (r.x + r.w) - max 0 r.x) 2) = true
        · obtain ⟨W, H, X1, X2, Y1, Y2, res, _, _, _, _, _, _, _, _, _, _, _, _, hclone, _, _⟩ :=
            surface_clone_region_wf env s r hwf hx hy hm ha
          rw [hclone]
          exact clone_finish_no_oob _ _ _ _ _ _
        · unfold surface_clone
          simp only [if_pos hx, if_pos hy, hm, ha]
          simp
      · unfold surface_clone
        simp only [if_pos hx, if_pos hy, hm]
        simp
    · rw [surface_clone_inverted env s r (Or.inr (not_le.mp hy))]
      simp
  · rw [surface_clone_inverted env s r (Or.inl (not_le.mp hx))]
    simp

/-- C11: on a surface with `stride = 4*width` and `pixlen = height*stride`
(the invariant of the data model) and for every region, the rectangle that
`surface_clone` and `surface_clear` use once their guards `x1 <= x2` and
`y1 <= y2` have passed satisfies `0 <= x1 <= x2 <= width` and
`0 <= y1 <= y2 <= height`, every pixel of that rectangle has its index
`y*width + x` in `[0, width*height)` and lies inside the buffer, and neither
function ever accesses memory outside of a buffer. -/
theorem region_access_in_bounds (env : env_t) (s : surface_t) (c : Option color_t)
    (r : region_t) (hwf : s.wf) :
    (max 0 r.x ≤ min s.width (r.x + r.w) → max 0 r.y ≤ min s.height (r.y + r.h) →
        0 ≤ max 0 r.x ∧ min s.width (r.x + r.w) ≤ s.width
        ∧ 0 ≤ max 0 r.y ∧ min s.height (r.y + r.h) ≤ s.height
        ∧ ∀ x y : Int, max 0 r.x ≤ x → x < min s.width (r.x + r.w) →
            max 0 r.y ≤ y → y < min s.height (r.y + r.h) →
            0 ≤ y * s.width + x ∧ y * s.width + x < s.width * s.height
            ∧ ∃ v, pixel_word s x y = .ok v)
    ∧ (surface_clone env (some s) (some r)).1 ≠ .error .out_of_bounds
    ∧ (∃ s1, surface_clear s c (some r) = .ok s1) := by
  refine ⟨?_, surface_clone_region_no_oob env s r hwf, ?_⟩
  · intro _ _
    refine ⟨le_max_left _ _, min_le_left _ _, le_max_left _ _, min_le_left _ _, ?_⟩
    intro x y hx1 hx2 hy1 hy2
    have hx0 : 0 ≤ x := le_trans (le_max_left _ _) hx1
    have hy0 : 0 ≤ y := le_trans (le_max_left _ _) hy1
    have hxw : x < s.width := lt_of_lt_of_le hx2 (min_le_left _ _)
    have hyh : y < s.height := lt_of_lt_of_le hy2 (min_le_left _ _)
    obtain ⟨K, hK, hKlen, hKe⟩ := pixel_index_wf s hwf x y hx0 hxw hy0 hyh
    obtain ⟨_, _, hs, hp, hl⟩ := hwf
    have hlen : (s.pixels.length : Int) = 4 * (s.width * s.height) := by
      rw [hl, hp, hs]; ring
    refine ⟨by rw [← hKe]; omega, by rw [← hKe]; omega, ?_⟩
    unfold pixel_word
    rw [hK]
    exact ⟨_, load32_nat _ K hKlen⟩
  · obtain ⟨s1, h1, _⟩ := surface_clear_region s c r hwf
    exact ⟨s1, h1⟩

theorem region_access_in_bounds_witness :
    (demo_surface demo_ramp).wf
    ∧ (surface_clone demo_env (some (demo_surface demo_ramp)) (some ⟨-3, 1, 100, 100⟩)).1
        ≠ .error .out_of_bounds
    ∧ ∃ s1, surface_clear (demo_surface demo_ramp) none (some ⟨-3, 1, 100, 100⟩) = .ok s1 :=
  have h := region_access_in_bounds demo_env (demo_surface demo_ramp) none ⟨-3, 1, 100, 100⟩
    (demo_surface_wf demo_ramp rfl)
  ⟨demo_surface_wf demo_ramp rfl, h.2.1, h.2.2⟩


/-! ## Premultiplied words are valid -/

theorem premul_le_left (a c : Nat) (hc : c ≤ 255) : premul a c ≤ a := by
  have h1 : a * c ≤ a * 255 := Nat.mul_le_mul_left a hc
  rw [premul_eq]
  generalize a * c = t at h1 ⊢
  omega

theorem premul_le_right (a c : Nat) (ha : a ≤ 255) : premul a c ≤ c := by
  have h1 : a * c ≤ 255 * c := Nat.mul_le_mul_right c ha
  rw [premul_eq]
  generalize a * c = t at h1 ⊢
  omega

theorem multiply_alpha_eq_premul (a c : Nat) (ha : a ≤ 255) (hc : c ≤ 255) :
    multiply_alpha (a : Int) (c : Int) = (premul a c : Int) := by
  have h1 : a * c ≤ 255 * 255 := Nat.mul_le_mul ha hc
  rw [premul_eq]
  unfold multiply_alpha shr
  have e : (a : Int) * (c : Int) = ((a * c : Nat) : Int) := by push_cast; rfl
  rw [e]
  generalize a * c = t at h1 ⊢
  norm_num

/-- C23: for `a` and `c` in 0..255, `multiply_alpha(a, c)` lies in 0..255 and
is at most `min(a, c)`, with `multiply_alpha(255, c) = c` and
`multiply_alpha(a, 255) = a`; and for a pixel with bytes `r, g, b, al` in
0..255 the word `w` that `premultiply_data` writes is below `2^32`, has `al`
as its alpha field, and has red, green and blue fields that are the values
`premul(al, r)`, `premul(al, g)`, `premul(al, b)`, none of them above the alpha
field: no field reaches into a neighbouring one. -/
theorem multiply_alpha_bounds (a c : Int) (r g b al : Nat) (rest : List Nat)
    (ha0 : 0 ≤ a) (ha : a ≤ 255) (hc0 : 0 ≤ c) (hc : c ≤ 255)
    (hr : r ≤ 255) (hg : g ≤ 255) (hb : b ≤ 255) (hal : al ≤ 255) :
    (0 ≤ multiply_alpha a c ∧ multiply_alpha a c ≤ 255 ∧ multiply_alpha a c ≤ min a c
      ∧ multiply_alpha 255 c = c ∧ multiply_alpha a 255 = a)
    ∧ premultiply_data (r :: g :: b :: al :: rest)
        = bytes32 (premultiply_pixel r g b al) ++ premultiply_data rest
    ∧ premultiply_pixel r g b al < 2 ^ 32
    ∧ premultiply_pixel r g b al >>> 24 = al
    ∧ (premultiply_pixel r g b al >>> 16) % 256 = premul al r
    ∧ (premultiply_pixel r g b al >>> 8) % 256 = premul al g
    ∧ premultiply_pixel r g b al % 256 = premul al b
    ∧ (premultiply_pixel r g b al >>> 16) % 256 ≤ premultiply_pixel r g b al >>> 24
    ∧ (premultiply_pixel r g b al >>> 8) % 256 ≤ premultiply_pixel r g b al >>> 24
    ∧ premultiply_pixel r g b al % 256 ≤ premultiply_pixel r g b al >>> 24 := by
  have part1 : 0 ≤ multiply_alpha a c ∧ multiply_alpha a c ≤ 255
      ∧ multiply_alpha a c ≤ min a c ∧ multiply_alpha 255 c = c ∧ multiply_alpha a 255 = a := by
    obtain ⟨A, rfl⟩ := Int.eq_ofNat_of_zero_le ha0
    obtain ⟨C, rfl⟩ := Int.eq_ofNat_of_zero_le hc0
    have hA : A ≤ 255 := by exact_mod_cast ha
    have hC : C ≤ 255 := by exact_mod_cast hc
    have h255 : ((255 : Nat) : Int) = 255 := rfl
    have e1 := multiply_alpha_eq_premul A C hA hC
    have e2 := multiply_alpha_eq_premul 255 C (le_refl _) hC
    have e3 := multiply_alpha_eq_premul A 255 hA (le_refl _)
    rw [h255] at e2 e3
    have b1 := premul_lt A C hA hC
    have b2 := premul_le_left A C hC
    have b3 := premul_le_right A C hA
    have b4 := premul_255 C hC
    have b5 : premul A 255 = A := by rw [premul_eq]; omega
    refine ⟨by rw [e1]; omega, by rw [e1]; omega, ?_, by rw [e2, b4], by rw [e3, b5]⟩
    rw [e1]
    exact le_min (by exact_mod_cast b2) (by exact_mod_cast b3)
  have hw := premultiply_pixel_eq r g b al hr hg hb hal
  have hsum := color_get_premult_eq_add ⟨r, g, b, al⟩ hr hg hb hal
  simp only at hsum
  rw [← hw] at hsum
  have q1 := premul_lt al r hal hr
  have q2 := premul_lt al g hal hg
  have q3 := premul_lt al b hal hb
  have l1 := premul_le_left al r hr
  have l2 := premul_le_left al g hg
  have l3 := premul_le_left al b hb
  have f0 : premultiply_pixel r g b al >>> 24 = al := by
    rw [hsum, Nat.shiftRight_eq_div_pow]; omega
  have f1 : (premultiply_pixel r g b al >>> 16) % 256 = premul al r := by
    rw [hsum, Nat.shiftRight_eq_div_pow]; omega
  have f2 : (premultiply_pixel r g b al >>> 8) % 256 = premul al g := by
    rw [hsum, Nat.shiftRight_eq_div_pow]; omega
  have f3 : premultiply_pixel r g b al % 256 = premul al b := by
    rw [hsum]; omega
  refine ⟨part1, rfl, by rw [hsum]; omega, f0, f1, f2, f3, ?_, ?_, ?_⟩
  · rw [f0, f1]; exact l1
  · rw [f0, f2]; exact l2
  · rw [f0, f3]; exact l3

theorem multiply_alpha_bounds_witness :
    (0 : Int) ≤ 128 ∧ (128 : Int) ≤ 255 ∧ (0 : Int) ≤ 200 ∧ (200 : Int) ≤ 255
    ∧ multiply_alpha 128 200 ≤ min 128 200
    ∧ (premultiply_pixel 200 100 50 128 >>> 16) % 256 ≤ premultiply_pixel 200 100 50 128 >>> 24 :=
  have h := multiply_alpha_bounds 128 200 200 100 50 128 [] (by decide) (by decide) (by decide)
    (by decide) (by decide) (by decide) (by decide) (by decide)
  ⟨by decide, by decide, by decide, by decide, h.1.2.2.1, h.2.2.2.2.2.2.2.1⟩

/-! ## Frame of `surface_set_pixel`, invariant of the constructors -/

theorem bytes32_mod (v : Nat) : bytes32 (v % 2 ^ 32) = bytes32 v := by
  unfold bytes32
  have h0 : v % 2 ^ 32 % 256 = v % 256 := by omega
  have h1 : v % 2 ^ 32 / 256 % 256 = v / 256 % 256 := by omega
  have h2 : v % 2 ^ 32 / 65536 % 256 = v / 65536 % 256 := by omega
  have h3 : v % 2 ^ 32 / 16777216 % 256 = v / 16777216 % 256 := by omega
  rw [h0, h1, h2, h3]

/-- C22: on a surface that satisfies the invariant of the data model and at an
in-bounds coordinate, `surface_set_pixel(s, x, y, c)` returns normally and
changes exactly one pixel word: the word at index `y*width + x` becomes the
premultiplied 32-bit value of `c`, every other word of the buffer holds what it
held before, and width, height, stride and pixlen are as they were. -/
theorem surface_set_pixel_one_word (s : surface_t) (x y : Int) (c : color_t) (hwf : s.wf)
    (hx0 : 0 ≤ x) (hx : x < s.width) (hy0 : 0 ≤ y) (hy : y < s.height) :
    ∃ s1, surface_set_pixel s x y (some c) = .ok s1
      ∧ s1.width = s.width ∧ s1.height = s.height ∧ s1.stride = s.stride
      ∧ s1.pixlen = s.pixlen ∧ s1.pixels.length = s.pixels.length
      ∧ load32 s1.pixels (y * s.width + x) = .ok (color_get_premult c % 2 ^ 32)
      ∧ pixel_word s1 x y = .ok (color_get_premult c % 2 ^ 32)
      ∧ (∀ j : Nat, 4 * j + 4 ≤ s.pixels.length → (j : Int) ≠ y * s.width + x →
          load32 s1.pixels (j : Int) = load32 s.pixels (j : Int))
      ∧ (c.r ≤ 255 → c.g ≤ 255 → c.b ≤ 255 → c.a ≤ 255 →
          color_get_premult c % 2 ^ 32 = color_get_premult c) := by
  obtain ⟨K, hK, hKlen, hKe⟩ := pixel_index_wf s hwf x y hx0 hx hy0 hy
  have hv : color_get_premult c % 2 ^ 32 < 2 ^ 32 := Nat.mod_lt _ (by decide)
  have hset : surface_set_pixel s x y (some c)
      = .ok { s with pixels := s.pixels.take (4 * K)
                ++ bytes32 (color_get_premult c % 2 ^ 32) ++ s.pixels.drop (4 * K + 4) } := by
    unfold surface_set_pixel
    simp only [if_pos (And.intro hx hy), hK, store32_nat _ K _ hKlen, bytes32_mod]
  have hload := load32_store32 s.pixels K K _ hv hKlen hKlen
  rw [if_pos rfl] at hload
  refine ⟨_, hset, rfl, rfl, rfl, rfl, store32_nat_length _ _ _ hKlen, ?_, ?_, ?_, ?_⟩
  · rw [← hKe]
    exact hload
  · unfold pixel_word
    simp only [hK]
    exact hload
  · intro j hj hne
    have hjk : j ≠ K := fun e => hne (by rw [e, hKe])
    have h := load32_store32 s.pixels K j _ hv hKlen hj
    rw [if_neg hjk] at h
    exact h
  · intro hr hg hb ha
    exact Nat.mod_eq_of_lt (color_get_premult_lt c hr hg hb ha)

theorem surface_set_pixel_one_word_witness :
    (demo_surface demo_zero).wf
    ∧ ∃ s1, surface_set_pixel (demo_surface demo_zero) 1 0 (some demo_white) = .ok s1
        ∧ pixel_word s1 1 0 = .ok (color_get_premult demo_white % 2 ^ 32)
        ∧ load32 s1.pixels ((3 : Nat) : Int) = load32 (demo_surface demo_zero).pixels ((3 : Nat) : Int) :=
  have h := surface_set_pixel_one_word (demo_surface demo_zero) 1 0 demo_white
    (demo_surface_wf demo_zero rfl) (by decide) (by decide) (by decide) (by decide)
  ⟨demo_surface_wf demo_zero rfl,
    match h with
    | ⟨s1, h1, _, _, _, _, _, _, h8, h9, _⟩ =>
      ⟨s1, h1, h8, h9 3 (by decide) (by decide)⟩⟩

theorem surface_clear_fields (s : surface_t) (c : Option color_t) (r : Option region_t)
    (s1 : surface_t) (h : surface_clear s c r = .ok s1) :
    s1.width = s.width ∧ s1.height = s.height ∧ s1.stride = s.stride
      ∧ s1.pixlen = s.pixlen := by
  unfold surface_clear at h
  simp only at h
  split at h <;> split_ifs at h <;>
    first
    | (cases h; first | done | exact ⟨rfl, rfl, rfl, rfl⟩)
    | (split at h <;> (cases h; first | done | exact ⟨rfl, rfl, rfl, rfl⟩))

theorem surface_set_pixel_fields (s : surface_t) (x y : Int) (c : Option color_t)
    (s1 : surface_t) (h : surface_set_pixel s x y c = .ok s1) :
    s1.width = s.width ∧ s1.height = s.height ∧ s1.stride = s.stride
      ∧ s1.pixlen = s.pixlen := by
  unfold surface_set_pixel at h
  split at h
  · cases h; exact ⟨rfl, rfl, rfl, rfl⟩
  · split_ifs at h
    · split at h
      · cases h; exact ⟨rfl, rfl, rfl, rfl⟩
      · cases h
    · cases h; exact ⟨rfl, rfl, rfl, rfl⟩

theorem surface_alloc_success (env : env_t) (render_list : List render_t)
    (width height : Int) (priv : Option Nat) (s : surface_t) (t : List event_t)
    (h : surface_alloc env render_list width height priv = (.ok (some s), t)) :
    0 ≤ width ∧ 0 ≤ height ∧ s.width = width ∧ s.height = height
      ∧ s.stride = shl width 2 ∧ s.pixlen = height * shl width 2
      ∧ s.pixels = List.replicate (height * shl width 2).toNat 0 := by
  by_cases hneg : width < 0 ∨ height < 0
  · unfold surface_alloc at h
    rw [if_pos hneg] at h
    simp at h
  · have hw : 0 ≤ width := by omega
    have hh : 0 ≤ height := by omega
    have hp : 0 ≤ height * shl width 2 := by
      unfold shl
      positivity
    unfold surface_alloc at h
    rw [if_neg hneg] at h
    simp only [memset_fresh env _ hp] at h
    split_ifs at h
    · simp at h
    · simp at h
    · split at h
      · simp at h
      · split at h
        · simp at h
        · simp only [Prod.mk.injEq, Except.ok.injEq, Option.some.injEq] at h
          obtain ⟨h, _⟩ := h
          subst h
          exact ⟨hw, hh, rfl, rfl, rfl, rfl, rfl⟩

/-- C21: a Surface returned by `surface_alloc` has `stride = 4*width`,
`pixlen = height*stride`, a buffer of exactly `pixlen` bytes, and every byte of
the buffer is 0; a Surface returned by `surface_clone`, with or without a
region, from a source with that invariant has the invariant too;
`surface_clear` and `surface_set_pixel`, whenever they return, leave width,
height, stride and pixlen as they were. -/
theorem surface_invariant (env : env_t) (src : surface_t) (hwf : src.wf) :
    (∀ (render_list : List render_t) (width height : Int) (priv : Option Nat)
        (s : surface_t) (t : List event_t),
        surface_alloc env render_list width height priv = (.ok (some s), t) →
        s.wf ∧ s.stride = 4 * s.width ∧ s.pixlen = s.height * s.stride
          ∧ (s.pixels.length : Int) = s.pixlen ∧ ∀ b ∈ s.pixels, b = 0)
    ∧ (∀ (r : Option region_t) (c : surface_t) (t : List event_t),
        surface_clone env (some src) r = (.ok (some c), t) →
        c.wf ∧ c.stride = 4 * c.width ∧ c.pixlen = c.height * c.stride
          ∧ (c.pixels.length : Int) = c.pixlen)
    ∧ (∀ (s : surface_t) (c : Option color_t) (r : Option region_t) (s1 : surface_t),
        surface_clear s c r = .ok s1 →
        s1.width = s.width ∧ s1.height = s.height ∧ s1.stride = s.stride
          ∧ s1.pixlen = s.pixlen)
    ∧ (∀ (s : surface_t) (x y : Int) (c : Option color_t) (s1 : surface_t),
        surface_set_pixel s x y c = .ok s1 →
        s1.width = s.width ∧ s1.height = s.height ∧ s1.stride = s.stride
          ∧ s1.pixlen = s.pixlen) := by
  refine ⟨?_, ?_, surface_clear_fields, surface_set_pixel_fields⟩
  · intro render_list width height priv s t h
    obtain ⟨hw, hh, e1, e2, e3, e4, e5⟩ := surface_alloc_success env render_list width height
      priv s t h
    have hp : 0 ≤ height * shl width 2 := by
      unfold shl
      positivity
    have hs : s.stride = 4 * s.width := by rw [e3, e1]; unfold shl; ring
    have hpl : s.pixlen = s.height * s.stride := by rw [e4, e2, e3]
    have hlen : (s.pixels.length : Int) = s.pixlen := by
      rw [e5, e4, List.length_replicate]
      exact Int.toNat_of_nonneg hp
    refine ⟨⟨by rw [e1]; exact hw, by rw [e2]; exact hh, hs, hpl, hlen⟩, hs, hpl, hlen, ?_⟩
    intro b hb
    rw [e5] at hb
    exact List.eq_of_mem_replicate hb
  · intro r c t h
    have key : c.wf := by
      cases r with
      | none =>
        obtain ⟨h1, h2, h3, h4, h5⟩ := surface_clone_none_success env src c t hwf h
        obtain ⟨w0, h0, hs, hp, hl⟩ := hwf
        exact ⟨by rw [h1]; exact w0, by rw [h2]; exact h0, by rw [h3, h1]; exact hs,
          by rw [h4, h2, h3]; exact hp, by rw [h5, h4]; exact hl⟩
      | some r =>
        obtain ⟨hx, hy, hm, ha⟩ := surface_clone_region_success env src r c t h
        obtain ⟨W, H, X1, X2, Y1, Y2, res, _, _, _, _, _, _, _, _, _, _, _, _, hclone, hreslen,
          _⟩ := surface_clone_region_wf env src r hwf hx hy hm ha
        rw [hclone] at h
        obtain ⟨cw, ch, cs, cp, cpx, _, _⟩ := clone_finish_success _ _ _ _ _ _ _ _ h
        refine ⟨by rw [cw]; omega, by rw [ch]; omega, by rw [cs, cw]; push_cast; rfl,
          by rw [cp, ch, cs]; push_cast; rfl, ?_⟩
        rw [cpx, cp, hreslen]
    exact ⟨key, key.2.2.1, key.2.2.2.1, key.2.2.2.2⟩

theorem surface_invariant_witness :
    (demo_surface demo_ramp).wf
    ∧ surface_clone demo_env (some (demo_surface demo_ramp)) (some ⟨0, 1, 1, 1⟩)
        = (.ok (some demo_clone_2), [.malloc, .memalign 4, .create 7])
    ∧ demo_clone_2.wf :=
  have h := surface_invariant demo_env (demo_surface demo_ramp) (demo_surface_wf demo_ramp rfl)
  ⟨demo_surface_wf demo_ramp rfl, rfl,
    (h.2.1 (some ⟨0, 1, 1, 1⟩) demo_clone_2 [.malloc, .memalign 4, .create 7] rfl).1⟩

end XBoot
